import Mathlib

/-!
# Verification of the smart-linker core

Shallow embedding, in Lean 4, of the smart-linker Obsidian plugin's core:
the vector math (`src/similarity/cosine.ts`), the embedding parsers
(`vectorSearchParser.ts`, `arrayParser.ts`, `mapParser.ts`, `parsers/index.ts`),
the embeddings index (`embeddingsIndex.ts`) and the managed-block text
synchronizer (`managedBlock.ts`).

Modelling conventions:
* JavaScript strings are modelled as `List Char` (a sequence of characters);
  `String.prototype.indexOf`, `trimEnd`, `trimStart`, `slice`, `toLowerCase`,
  `split`, `startsWith`/`endsWith` are given explicit models below.
  `toLowerCase` is modelled per-character with `Char.toLower` (faithful on the
  ASCII range used by the plugin's path handling).
* JavaScript numbers (and the `Float32Array` contents) are modelled as real
  numbers; IEEE rounding is abstracted away, `Math.sqrt` is `Real.sqrt`.
* A thrown exception is modelled with `Option`/an explicit error component:
  `none`/`some err` is a throw, and the functions that mutate `this` return
  the final state alongside the error so that post-throw state is visible.
* JavaScript `Map` (insertion-ordered, `set` keeps the position of an existing
  key) is modelled as an insertion-ordered association list (`mapSet`/`mapGet`).
-/

namespace SmartLinker

/-- JS whitespace for `trimStart`/`trimEnd`: ASCII blanks, NBSP,
line/paragraph separators and the BOM. -/
def isWs (c : Char) : Bool :=
  c = ' ' || c = '\t' || c = '\n' || c = '\r' || c = '\x0b' || c = '\x0c' ||
  c = '\u00A0' || c = '\u2028' || c = '\u2029' || c = '\uFEFF'

/-- Model of `String.prototype.trimEnd`. -/
def trimEnd (l : List Char) : List Char :=
  (l.reverse.dropWhile isWs).reverse

/-- Model of `String.prototype.trimStart`. -/
def trimStart (l : List Char) : List Char :=
  l.dropWhile isWs

/-- Model of `String.prototype.indexOf(needle)`: index of the first occurrence
of `needle` in `hay`, `none` when there is none (JS returns `-1`). -/
def strIndexOf (needle : List Char) : List Char → Option Nat
  | [] => if needle = [] then some 0 else none
  | h :: t =>
    if needle.isPrefixOf (h :: t) then some 0
    else (strIndexOf needle t).map (· + 1)

/-- Model of `String.prototype.indexOf(needle, start)`: index of the first
occurrence of `needle` at position `start` or later. -/
def strIndexOfFrom (hay needle : List Char) (start : Nat) : Option Nat :=
  (strIndexOf needle (hay.drop start)).map (· + start)

/-- `BLOCK_START_MARKER` from `managedBlock.ts`. -/
def startMarkerL : List Char := ("<!-- auto-related:start -->").toList

/-- `BLOCK_END_MARKER` from `managedBlock.ts`. -/
def endMarkerL : List Char := ("<!-- auto-related:end -->").toList

/-- `findManagedBlock` from `managedBlock.ts`: first start marker, then the
first end marker at or after it; the span is
`[startIndex, endIndex + endMarker.length)`.  A dangling start marker (no end
marker at or after it) yields `none`. -/
def findManagedBlock (content : List Char) : Option (Nat × Nat) :=
  match strIndexOf startMarkerL content with
  | none => none
  | some startIndex =>
    match strIndexOfFrom content endMarkerL startIndex with
    | none => none
    | some endIndex => some (startIndex, endIndex + endMarkerL.length)

/-- `updateManagedBlock` from `managedBlock.ts`. -/
def updateManagedBlock (content newBlock : List Char) : List Char :=
  match findManagedBlock content with
  | some (s, e) =>
    let before := content.take s
    let after := content.drop e
    let cleanBefore := trimEnd before
    let cleanAfter := trimStart after
    let r1 := if cleanBefore.length > 0 then cleanBefore ++ ('\n' :: ['\n']) else cleanBefore
    let r2 := r1 ++ newBlock
    if cleanAfter.length > 0 then r2 ++ '\n' :: '\n' :: cleanAfter else r2 ++ ['\n']
  | none =>
    let trimmedContent := trimEnd content
    if trimmedContent.length = 0 then newBlock ++ ['\n']
    else trimmedContent ++ '\n' :: '\n' :: (newBlock ++ ['\n'])

/-- `getBasename` from `managedBlock.ts`: last `/`-separated segment. -/
def getBasename (path : List Char) : List Char :=
  (path.splitOn '/').getLastD []

/-- `getNoteName` from `managedBlock.ts`: basename without a `.md` suffix. -/
def getNoteName (path : List Char) : List Char :=
  let name := getBasename path
  if (".md").toList.isSuffixOf name then name.take (name.length - 3) else name

/-- `RelatedNote` from `managedBlock.ts` (score is a cosine similarity). -/
structure RelatedNote where
  path : List Char
  score : ℝ

/-- `ManagedBlockOptions` from `managedBlock.ts`. -/
structure ManagedBlockOptions where
  heading : List Char
  showScores : Bool
  usePathLinks : Bool

/-- One generated line of the block body (the loop body of
`generateManagedBlock`); `fmt` abstracts `score.toFixed(3)`, whose decimal
rendering of a float is not modelled. -/
def noteLine (fmt : ℝ → List Char) (options : ManagedBlockOptions) (note : RelatedNote) :
    List Char :=
  let link :=
    if options.usePathLinks then ("[[").toList ++ note.path ++ ("]]").toList
    else ("[[").toList ++ note.path ++ ("|").toList ++ getNoteName note.path ++ ("]]").toList
  let line := ("- ").toList ++ link
  if options.showScores then line ++ (" (").toList ++ fmt note.score ++ (")").toList
  else line

/-- `lines.join("\n")`. -/
def joinNl : List (List Char) → List Char
  | [] => []
  | [l] => l
  | l :: l' :: ls => l ++ '\n' :: joinNl (l' :: ls)

/-- `generateManagedBlock` from `managedBlock.ts`: start marker line, heading
line, one line per note (or the placeholder), end marker line, joined with
newlines.  `fmt` abstracts the `toFixed(3)` score formatting. -/
def generateManagedBlock (fmt : ℝ → List Char) (relatedNotes : List RelatedNote)
    (options : ManagedBlockOptions) : List Char :=
  joinNl ([startMarkerL, options.heading] ++
    (if relatedNotes.isEmpty then [("*No related notes found*").toList]
     else relatedNotes.map (noteLine fmt options)) ++ [endMarkerL])

/-! ## Lemmas about `strIndexOf` (first-occurrence search) -/

/-- Soundness and minimality: a hit of `strIndexOf` is an occurrence, and the
first one. -/
theorem strIndexOf_some {needle hay : List Char} {j : Nat}
    (h : strIndexOf needle hay = some j) :
    needle <+: hay.drop j ∧ ∀ i < j, ¬ needle <+: hay.drop i := by
  induction hay generalizing j with
  | nil =>
    by_cases hn : needle = ([] : List Char)
    · simp only [strIndexOf, if_pos hn, Option.some.injEq] at h
      subst h
      exact ⟨by simp [hn], by omega⟩
    · simp [strIndexOf, hn] at h
  | cons c t ih =>
    by_cases hp : needle.isPrefixOf (c :: t)
    · simp only [strIndexOf, if_pos hp, Option.some.injEq] at h
      subst h
      exact ⟨List.isPrefixOf_iff_prefix.mp hp, by omega⟩
    · simp only [strIndexOf, if_neg hp, Option.map_eq_some'] at h
      obtain ⟨j', hj', rfl⟩ := h
      obtain ⟨h1, h2⟩ := ih hj'
      refine ⟨h1, ?_⟩
      intro i hi
      match i with
      | 0 =>
        intro hpre
        exact hp (List.isPrefixOf_iff_prefix.mpr hpre)
      | i' + 1 =>
        exact h2 i' (by omega)

/-- Completeness: if there is no occurrence at all, `strIndexOf` misses. -/
theorem strIndexOf_none {needle hay : List Char}
    (h : strIndexOf needle hay = none) :
    ∀ i, ¬ needle <+: hay.drop i := by
  induction hay with
  | nil =>
    by_cases hn : needle = ([] : List Char)
    · simp [strIndexOf, hn] at h
    · intro i hpre
      rw [List.drop_nil] at hpre
      exact hn (List.prefix_nil.mp hpre)
  | cons c t ih =>
    by_cases hp : needle.isPrefixOf (c :: t)
    · simp [strIndexOf, hp] at h
    · simp only [strIndexOf, if_neg hp, Option.map_eq_none'] at h
      intro i
      match i with
      | 0 =>
        intro hpre
        exact hp (List.isPrefixOf_iff_prefix.mpr hpre)
      | i' + 1 =>
        exact ih h i'

/-- The converse direction: a first occurrence determines `strIndexOf`. -/
theorem strIndexOf_of_first {needle hay : List Char} {j : Nat}
    (h1 : needle <+: hay.drop j) (h2 : ∀ i < j, ¬ needle <+: hay.drop i) :
    strIndexOf needle hay = some j := by
  induction hay generalizing j with
  | nil =>
    rw [List.drop_nil] at h1
    have hn : needle = [] := List.prefix_nil.mp h1
    match j with
    | 0 => simp [strIndexOf, hn]
    | j' + 1 =>
      exact absurd (by simp [hn] : needle <+: List.drop 0 []) (h2 0 (by omega))
  | cons c t ih =>
    match j with
    | 0 =>
      rw [List.drop_zero] at h1
      simp [strIndexOf, List.isPrefixOf_iff_prefix.mpr h1]
    | j' + 1 =>
      have hp : ¬ needle.isPrefixOf (c :: t) := by
        intro hp
        exact h2 0 (by omega) (by simpa using List.isPrefixOf_iff_prefix.mp hp)
      have := ih (j := j') (by simpa using h1)
        (fun i hi hpre => h2 (i + 1) (by omega) (by simpa using hpre))
      simp [strIndexOf, hp, this]

/-- An occurrence found makes the needle a prefix at index 0 when it starts
the haystack. -/
theorem strIndexOf_of_pref {needle hay : List Char} (h : needle <+: hay) :
    strIndexOf needle hay = some 0 :=
  strIndexOf_of_first (by simpa using h) (by omega)

/-- If a list has no occurrence, neither does any of its prefixes. -/
theorem strIndexOf_none_mono {needle long short : List Char}
    (h : strIndexOf needle long = none) (hpre : short <+: long) :
    strIndexOf needle short = none := by
  cases hres : strIndexOf needle short with
  | none => rfl
  | some j =>
    exfalso
    have h1 := (strIndexOf_some hres).1
    have hd : short.drop j <+: long.drop j := by
      obtain ⟨tail, rfl⟩ := hpre
      by_cases hj : j ≤ short.length
      · rw [List.drop_append_of_le_length hj]
        exact List.prefix_append _ _
      · rw [List.drop_eq_nil_of_le (le_of_not_le hj)]
        exact List.nil_prefix
    exact strIndexOf_none h j (h1.trans hd)

/-- A needle without a newline cannot be a prefix across a newline boundary. -/
theorem pref_across_newline {needle X Y : List Char} (hn : ('\n' : Char) ∉ needle) :
    needle <+: X ++ '\n' :: Y ↔ needle <+: X := by
  induction needle generalizing X with
  | nil => simp
  | cons a n' ih =>
    match X with
    | [] =>
      constructor
      · intro h
        obtain ⟨rfl, -⟩ := List.cons_prefix_cons.mp (by simpa using h)
        exact absurd (List.mem_cons_self _ _) hn
      · intro h
        exact absurd (List.prefix_nil.mp h) (by simp)
    | x :: X' =>
      have hn' : ('\n' : Char) ∉ n' := fun hm => hn (List.mem_cons_of_mem _ hm)
      constructor
      · intro h
        obtain ⟨rfl, htail⟩ := List.cons_prefix_cons.mp (by simpa using h)
        exact List.cons_prefix_cons.mpr ⟨rfl, (ih hn').mp htail⟩
      · intro h
        obtain ⟨rfl, htail⟩ := List.cons_prefix_cons.mp h
        exact List.cons_prefix_cons.mpr ⟨rfl, by
          simpa using (ih hn').mpr htail⟩

/-- A hit inside a list survives appending anything to the right. -/
theorem strIndexOf_append_of_some {needle X Z : List Char} {j : Nat}
    (h : strIndexOf needle X = some j) :
    strIndexOf needle (X ++ Z) = some j := by
  obtain ⟨h1, h2⟩ := strIndexOf_some h
  have hj : j ≤ X.length := by
    by_contra hj
    have hnil : X.drop j = [] := List.drop_eq_nil_of_le (by omega)
    have hn : needle = [] := List.prefix_nil.mp (hnil ▸ h1)
    match j with
    | 0 => omega
    | j' + 1 => exact h2 0 (by omega) (by simp [hn])
  have hlen : needle.length ≤ X.length - j := by
    have := h1.length_le
    simpa [List.length_drop] using this
  refine strIndexOf_of_first ?_ ?_
  · rw [List.drop_append_of_le_length hj]
    exact h1.trans (List.prefix_append _ _)
  · intro i hi hpre
    rw [List.drop_append_of_le_length (by omega)] at hpre
    have hshort : needle.length ≤ (X.drop i).length := by
      rw [List.length_drop]; omega
    have : needle <+: X.drop i := by
      have heq : needle = (X.drop i ++ Z).take needle.length :=
        List.prefix_iff_eq_take.mp hpre
      rw [List.take_append_eq_append_take, Nat.sub_eq_zero_of_le hshort,
        List.take_zero, List.append_nil] at heq
      exact heq ▸ List.take_prefix _ _
    exact h2 i hi this

/-- Searching past a newline: when the needle has no newline and does not
occur in `X`, the first occurrence in `X ++ "\n" ++ Y` is the first occurrence
in `Y`, shifted. -/
theorem strIndexOf_append_nl {needle X Y : List Char}
    (hn : ('\n' : Char) ∉ needle) (h : strIndexOf needle X = none) :
    strIndexOf needle (X ++ '\n' :: Y) =
      (strIndexOf needle Y).map (· + (X.length + 1)) := by
  cases hres : strIndexOf needle Y with
  | some m =>
    obtain ⟨hm1, hm2⟩ := strIndexOf_some hres
    refine strIndexOf_of_first ?_ ?_
    · have : (X ++ '\n' :: Y).drop (m + (X.length + 1)) = Y.drop m := by
        rw [show m + (X.length + 1) = X.length + (m + 1) by omega,
          List.drop_append, List.drop_succ_cons]
      simpa [this] using hm1
    · intro i hi hpre
      have hi2 : i < m + (X.length + 1) := by simpa using hi
      by_cases hx : i ≤ X.length
      · rw [List.drop_append_of_le_length hx] at hpre
        exact strIndexOf_none h i ((pref_across_newline hn).mp hpre)
      · have hdecomp : i = X.length + ((i - X.length - 1) + 1) := by omega
        rw [hdecomp, List.drop_append, List.drop_succ_cons] at hpre
        exact hm2 (i - X.length - 1) (by omega) hpre
  | none =>
    simp only [Option.map_none']
    cases hres2 : strIndexOf needle (X ++ '\n' :: Y) with
    | none => rfl
    | some j =>
      exfalso
      have h1 := (strIndexOf_some hres2).1
      by_cases hx : j ≤ X.length
      · rw [List.drop_append_of_le_length hx] at h1
        exact strIndexOf_none h j ((pref_across_newline hn).mp h1)
      · by_cases hy : j ≤ X.length + 1 + Y.length
        · have hdecomp : j = X.length + ((j - X.length - 1) + 1) := by omega
          rw [hdecomp, List.drop_append, List.drop_succ_cons] at h1
          exact strIndexOf_none hres (j - X.length - 1) h1
        · have : (X ++ '\n' :: Y).drop j = [] := by
            apply List.drop_eq_nil_of_le
            simp only [List.length_append, List.length_cons]
            omega
          rw [this] at h1
          have hnil : needle = [] := List.prefix_nil.mp h1
          exact strIndexOf_none h 0 (by simp [hnil])

/-! ## Lemmas about `trimStart`/`trimEnd` -/

theorem trimEnd_idem (l : List Char) : trimEnd (trimEnd l) = trimEnd l := by
  have dw : ∀ m : List Char, (m.dropWhile isWs).dropWhile isWs = m.dropWhile isWs := by
    intro m
    induction m with
    | nil => rfl
    | cons h t ih =>
      by_cases hp : isWs h
      · simp [List.dropWhile_cons, hp, ih]
      · simp [List.dropWhile_cons, hp]
  simp [trimEnd, dw]

theorem trimStart_idem (l : List Char) : trimStart (trimStart l) = trimStart l := by
  simp only [trimStart]
  induction l with
  | nil => rfl
  | cons h t ih =>
    by_cases hp : isWs h
    · simp [List.dropWhile_cons, hp, ih]
    · simp [List.dropWhile_cons, hp]

theorem trimEnd_append_nl2 (l : List Char) :
    trimEnd (l ++ '\n' :: ['\n']) = trimEnd l := by
  simp [trimEnd, List.dropWhile_cons, isWs]

theorem trimStart_cons_nl2 (l : List Char) :
    trimStart ('\n' :: '\n' :: l) = trimStart l := by
  simp [trimStart, List.dropWhile_cons, isWs]

theorem trimEnd_pref (l : List Char) : trimEnd l <+: l := by
  have : l.reverse.dropWhile isWs <:+ l.reverse := List.dropWhile_suffix isWs
  have h2 := List.reverse_prefix.mpr this
  simpa [trimEnd] using h2

/-! ## The shape produced by `updateManagedBlock` -/

/-- Proof helper: the canonical shape of an `updateManagedBlock` result — a
trimmed prefix, a blank-line separator (when the prefix is non-empty), the
block, and either a final newline or a blank-line separator and a trimmed
suffix. -/
def glue (cb b ca : List Char) : List Char :=
  (if cb.length > 0 then cb ++ '\n' :: ['\n'] else cb) ++
    (if ca.length > 0 then b ++ '\n' :: '\n' :: ca else b ++ ['\n'])

theorem startMarker_no_nl : ('\n' : Char) ∉ startMarkerL := by decide

theorem endMarker_no_nl : ('\n' : Char) ∉ endMarkerL := by decide

/-- First start-marker occurrence in a glued text is right after the prefix
part, provided the prefix has no occurrence of its own. -/
theorem strIndexOf_start_glue {cb Z : List Char}
    (hcb : strIndexOf startMarkerL cb = none) (hZ : startMarkerL <+: Z) :
    strIndexOf startMarkerL
        ((if cb.length > 0 then cb ++ '\n' :: ['\n'] else cb) ++ Z)
      = some (if cb.length > 0 then cb ++ '\n' :: ['\n'] else cb).length := by
  by_cases h : cb.length > 0
  · simp only [if_pos h]
    have hassoc : (cb ++ '\n' :: ['\n']) ++ Z = cb ++ '\n' :: ('\n' :: Z) := by
      simp
    rw [hassoc, strIndexOf_append_nl startMarker_no_nl hcb]
    have hinner : ('\n' :: Z) = ([] : List Char) ++ '\n' :: Z := rfl
    rw [hinner, strIndexOf_append_nl startMarker_no_nl (by decide),
      strIndexOf_of_pref hZ]
    simp
    omega
  · have hnil : cb = [] := by
      cases cb with
      | nil => rfl
      | cons x xs => simp at h
    subst hnil
    simpa using strIndexOf_of_pref hZ

/-- `updateManagedBlock` leaves a glued text fixed when the prefix part is
trimmed and marker-free, the suffix part is trimmed, and the block starts with
the start marker and contains the end marker exactly at its end. -/
theorem updateManagedBlock_glue {cb ca mid : List Char}
    (hcb : strIndexOf startMarkerL cb = none)
    (hcbt : trimEnd cb = cb)
    (hca : trimStart ca = ca)
    (hbe : strIndexOf endMarkerL (startMarkerL ++ mid ++ endMarkerL)
      = some (startMarkerL.length + mid.length)) :
    updateManagedBlock (glue cb (startMarkerL ++ mid ++ endMarkerL) ca)
        (startMarkerL ++ mid ++ endMarkerL)
      = glue cb (startMarkerL ++ mid ++ endMarkerL) ca := by
  have hb : ∀ S : List Char, startMarkerL ++ mid ++ endMarkerL ++ S
      = startMarkerL ++ (mid ++ endMarkerL ++ S) := by
    intro S
    simp
  set b : List Char := startMarkerL ++ mid ++ endMarkerL with hbdef
  set P : List Char := if cb.length > 0 then cb ++ '\n' :: ['\n'] else cb with hPdef
  set S : List Char := if ca.length > 0 then '\n' :: '\n' :: ca else ['\n'] with hSdef
  have hglue : glue cb b ca = P ++ (b ++ S) := by
    by_cases h : ca.length > 0 <;> simp [glue, hPdef, hSdef, h]
  have hSnl : ∃ S', S = '\n' :: S' := by
    by_cases h : ca.length > 0
    · exact ⟨'\n' :: ca, by simp [hSdef, h]⟩
    · exact ⟨[], by simp [hSdef, h]⟩
  -- step 1: the start marker is found at the start of the block
  have hstart : strIndexOf startMarkerL (P ++ (b ++ S)) = some P.length :=
    strIndexOf_start_glue hcb (by
      rw [hbdef, hb]
      exact List.prefix_append _ _)
  -- step 2: the end marker is found exactly at the end of the block
  have hq : strIndexOf endMarkerL (b ++ S) = some (startMarkerL.length + mid.length) :=
    strIndexOf_append_of_some hbe
  have hfrom : strIndexOfFrom (P ++ (b ++ S)) endMarkerL P.length
      = some (startMarkerL.length + mid.length + P.length) := by
    rw [strIndexOfFrom, List.drop_left, hq]
    rfl
  -- step 3: hence the managed block found is exactly the glued-in block
  have hfind : findManagedBlock (P ++ (b ++ S))
      = some (P.length, startMarkerL.length + mid.length + P.length + endMarkerL.length) := by
    rw [findManagedBlock, hstart]
    simp [hfrom]
  have hblen : startMarkerL.length + mid.length + P.length + endMarkerL.length
      = P.length + b.length := by
    simp [hbdef]
    omega
  -- step 4: the pieces around the found block
  have hbefore : (P ++ (b ++ S)).take P.length = P := List.take_left _ _
  have hafter : (P ++ (b ++ S)).drop (P.length + b.length) = S := by
    have : P ++ (b ++ S) = (P ++ b) ++ S := by simp
    rw [this, show P.length + b.length = (P ++ b).length by simp, List.drop_left]
  have hcbP : trimEnd P = cb := by
    by_cases h : cb.length > 0
    · simp only [hPdef, if_pos h]
      rw [trimEnd_append_nl2, hcbt]
    · have hnil : cb = [] := by
        cases cb with
        | nil => rfl
        | cons x xs => simp at h
      simp [hPdef, hnil, trimEnd]
  have hcaS : trimStart S = ca := by
    by_cases h : ca.length > 0
    · simp only [hSdef, if_pos h]
      rw [show ('\n' :: '\n' :: ca : List Char) = '\n' :: '\n' :: ca from rfl,
        trimStart_cons_nl2, hca]
    · have hnil : ca = [] := by
        cases ca with
        | nil => rfl
        | cons x xs => simp at h
      simp [hSdef, hnil]
      decide
  -- step 5: rebuild
  rw [hglue, updateManagedBlock, hfind]
  simp only [hblen, hbefore, hafter, hcbP, hcaS]
  by_cases h1 : cb.length > 0 <;> by_cases h2 : ca.length > 0 <;>
    simp [hPdef, hSdef, h1, h2]

/-- Dropping preserves the prefix relation. -/
theorem pref_drop {l m : List Char} (h : l <+: m) (n : Nat) :
    l.drop n <+: m.drop n := by
  obtain ⟨tail, rfl⟩ := h
  by_cases hn : n ≤ l.length
  · rw [List.drop_append_of_le_length hn]
    exact List.prefix_append _ _
  · rw [List.drop_eq_nil_of_le (le_of_not_le hn)]
    exact List.nil_prefix

/-- Anything that fits inside the text before the first occurrence has no
occurrence of its own. -/
theorem strIndexOf_none_before {needle t cb : List Char} {s : Nat}
    (hne : needle ≠ []) (h : strIndexOf needle t = some s)
    (hcb : cb <+: t.take s) :
    strIndexOf needle cb = none := by
  cases hres : strIndexOf needle cb with
  | none => rfl
  | some j =>
    exfalso
    obtain ⟨h1, -⟩ := strIndexOf_some hres
    have hlen : needle.length ≤ cb.length - j := by
      simpa [List.length_drop] using h1.length_le
    have hpos : 0 < needle.length := List.length_pos.mpr hne
    have hcblen : cb.length ≤ s := by
      have := hcb.length_le
      simp only [List.length_take] at this
      omega
    have hjs : j < s := by omega
    have hd : cb.drop j <+: t.drop j :=
      pref_drop (hcb.trans (List.take_prefix s t)) j
    exact (strIndexOf_some h).2 j hjs (h1.trans hd)

/-- Inversion for a found managed block: the start index is the first
start-marker occurrence. -/
theorem findManagedBlock_some_inv {t : List Char} {s e : Nat}
    (h : findManagedBlock t = some (s, e)) :
    strIndexOf startMarkerL t = some s := by
  cases hS : strIndexOf startMarkerL t with
  | none => rw [findManagedBlock, hS] at h; simp at h
  | some s2 =>
    rw [findManagedBlock, hS] at h
    cases hE : strIndexOfFrom t endMarkerL s2 with
    | none => simp [hE] at h
    | some e2 =>
      simp only [hE, Option.some.injEq, Prod.mk.injEq] at h
      rw [h.1]

/-- `updateManagedBlock` always produces a glued shape (the two branches of
the source: replace, or append). -/
theorem updateManagedBlock_eq_glue (t b : List Char) :
    (∃ s e, findManagedBlock t = some (s, e) ∧
      updateManagedBlock t b = glue (trimEnd (t.take s)) b (trimStart (t.drop e))) ∨
    (findManagedBlock t = none ∧ updateManagedBlock t b = glue (trimEnd t) b []) := by
  cases hfind : findManagedBlock t with
  | some se =>
    obtain ⟨s, e⟩ := se
    left
    refine ⟨s, e, rfl, ?_⟩
    rw [updateManagedBlock, hfind]
    by_cases h2 : (trimStart (t.drop e)).length > 0 <;>
      by_cases h1 : (trimEnd (t.take s)).length > 0 <;>
        simp [glue, h1, h2, List.append_assoc]
  | none =>
    right
    refine ⟨rfl, ?_⟩
    rw [updateManagedBlock, hfind]
    by_cases h1 : (trimEnd t).length = 0
    · have : trimEnd t = [] := List.length_eq_zero.mp h1
      simp [glue, this]
    · have h2 : (trimEnd t).length > 0 := by omega
      simp [glue, h1, h2, List.append_assoc]

/-! ## `generateManagedBlock` structure -/

/-- A joined list of lines ending in `x` is some text followed by `x`. -/
theorem joinNl_append_last (ls : List (List Char)) (x : List Char) :
    ∃ pre, joinNl (ls ++ [x]) = pre ++ x := by
  induction ls with
  | nil => exact ⟨[], rfl⟩
  | cons a ls ih =>
    obtain ⟨pre, hpre⟩ := ih
    cases ls with
    | nil => exact ⟨a ++ ['\n'], by simp [joinNl]⟩
    | cons a2 ls2 =>
      refine ⟨a ++ '\n' :: pre, ?_⟩
      have : (a :: (a2 :: ls2)) ++ [x] = a :: (a2 :: (ls2 ++ [x])) := by simp
      rw [this, joinNl]
      have h2 : (a2 :: (ls2 ++ [x])) = (a2 :: ls2) ++ [x] := by simp
      rw [h2, hpre]
      simp

/-- Every generated block is the start marker, some middle text, and the end
marker. -/
theorem generateManagedBlock_shape (fmt : ℝ → List Char)
    (notes : List RelatedNote) (opts : ManagedBlockOptions) :
    ∃ mid, generateManagedBlock fmt notes opts
      = startMarkerL ++ mid ++ endMarkerL := by
  unfold generateManagedBlock
  set body := if notes.isEmpty then [("*No related notes found*").toList]
    else notes.map (noteLine fmt opts) with hbody
  obtain ⟨pre, hpre⟩ := joinNl_append_last (opts.heading :: body) endMarkerL
  refine ⟨'\n' :: pre, ?_⟩
  have h1 : [startMarkerL, opts.heading] ++ body ++ [endMarkerL]
      = startMarkerL :: (opts.heading :: (body ++ [endMarkerL])) := by simp
  rw [h1]
  have h2 : (opts.heading :: (body ++ [endMarkerL]))
      = (opts.heading :: body) ++ [endMarkerL] := by simp
  cases hb : body ++ [endMarkerL] with
  | nil => simp at hb
  | cons c cs =>
    rw [joinNl]
    rw [← hb, h2, hpre]
    simp


/-! ## Claims C5, C6, C7 -/

/-- C5 (amended): `updateManagedBlock` is idempotent for a generated block
whose only end-marker occurrence is its final line, on any document whose
first start marker (if any) has a matching end marker. -/
theorem updateManagedBlock_idempotent (fmt : ℝ → List Char)
    (notes : List RelatedNote) (opts : ManagedBlockOptions) (t : List Char)
    (ht : findManagedBlock t = none → strIndexOf startMarkerL t = none)
    (hbe : strIndexOf endMarkerL (generateManagedBlock fmt notes opts)
      = some ((generateManagedBlock fmt notes opts).length - endMarkerL.length)) :
    updateManagedBlock (updateManagedBlock t (generateManagedBlock fmt notes opts))
        (generateManagedBlock fmt notes opts)
      = updateManagedBlock t (generateManagedBlock fmt notes opts) := by
  obtain ⟨mid, hmid⟩ := generateManagedBlock_shape fmt notes opts
  rw [hmid] at hbe ⊢
  have hlen : (startMarkerL ++ mid ++ endMarkerL).length - endMarkerL.length
      = startMarkerL.length + mid.length := by
    simp
    omega
  rw [hlen] at hbe
  rcases updateManagedBlock_eq_glue t (startMarkerL ++ mid ++ endMarkerL) with
    ⟨sIdx, eIdx, hfind, heq⟩ | ⟨hfind, heq⟩
  · rw [heq]
    have hs := findManagedBlock_some_inv hfind
    exact updateManagedBlock_glue
      (strIndexOf_none_before (by decide) hs (trimEnd_pref _))
      (trimEnd_idem _) (trimStart_idem _) hbe
  · rw [heq]
    exact updateManagedBlock_glue
      (strIndexOf_none_mono (ht hfind) (trimEnd_pref t))
      (trimEnd_idem _) rfl hbe

/-- The concrete block `generateManagedBlock` produces for zero related notes
with heading `## Related`, `showScores: false`, `usePathLinks: true`. -/
def stdBlock : List Char :=
  generateManagedBlock (fun _ => []) [] ⟨("## Related").toList, false, true⟩

set_option maxRecDepth 20000 in
/-- C5 (counterexample): on a document that consists of a dangling start
marker, the first update keeps the marker but the second one swallows it, so
the update is not idempotent as claimed. -/
theorem updateManagedBlock_not_idempotent :
    updateManagedBlock (updateManagedBlock startMarkerL stdBlock) stdBlock
      ≠ updateManagedBlock startMarkerL stdBlock := by decide

/-- C5 (witness): the amended idempotence at the concrete document
`"Hello world.\n"` and the concrete generated block. -/
theorem updateManagedBlock_idempotent_witness :
    updateManagedBlock (updateManagedBlock (("Hello world.\n").toList) stdBlock) stdBlock
      = updateManagedBlock (("Hello world.\n").toList) stdBlock :=
  updateManagedBlock_idempotent (fun _ => []) []
    ⟨("## Related").toList, false, true⟩ (("Hello world.\n").toList)
    (fun _ => by decide) (by decide)

/-- C6: on a document with no managed block (no start marker, or a start
marker without an end marker at or after it), `updateManagedBlock` trims the
document\'s trailing whitespace and appends the block after a blank line (or
yields just the block and a newline when the trimmed document is empty). -/
theorem updateManagedBlock_append (t b : List Char)
    (ht : strIndexOf startMarkerL t = none ∨
      ∃ s, strIndexOf startMarkerL t = some s ∧ strIndexOfFrom t endMarkerL s = none) :
    updateManagedBlock t b =
      if (trimEnd t).length = 0 then b ++ ['\n']
      else trimEnd t ++ '\n' :: '\n' :: (b ++ ['\n']) := by
  have hfind : findManagedBlock t = none := by
    rcases ht with h | ⟨s, hs, he⟩
    · rw [findManagedBlock, h]
    · simp [findManagedBlock, hs, he]
  rw [updateManagedBlock, hfind]

/-- C6 (witness): the spec scenario
`update("Some note body.\n", block) = "Some note body.\n\n" + block + "\n"`. -/
theorem updateManagedBlock_append_witness :
    updateManagedBlock (("Some note body.\n").toList) stdBlock
      = ("Some note body.\n\n").toList ++ (stdBlock ++ ['\n']) := by
  rw [updateManagedBlock_append _ _ (Or.inl (by decide))]
  decide

/-- C7: a start marker with no end marker at or after it is treated as "no
block": `findManagedBlock` yields `none` and `updateManagedBlock` takes the
append path. -/
theorem danglingStart_no_block (t b : List Char) (s : Nat)
    (hs : strIndexOf startMarkerL t = some s)
    (he : strIndexOfFrom t endMarkerL s = none) :
    findManagedBlock t = none ∧
      updateManagedBlock t b =
        (if (trimEnd t).length = 0 then b ++ ['\n']
         else trimEnd t ++ '\n' :: '\n' :: (b ++ ['\n'])) := by
  have hfind : findManagedBlock t = none := by simp [findManagedBlock, hs, he]
  exact ⟨hfind, by rw [updateManagedBlock, hfind]⟩

/-- C7 (witness): the concrete document that is exactly a dangling start
marker. -/
theorem danglingStart_no_block_witness :
    findManagedBlock startMarkerL = none ∧
      updateManagedBlock startMarkerL stdBlock =
        (if (trimEnd startMarkerL).length = 0 then stdBlock ++ ['\n']
         else trimEnd startMarkerL ++ '\n' :: '\n' :: (stdBlock ++ ['\n'])) :=
  danglingStart_no_block startMarkerL stdBlock 0 (by decide) (by decide)


/-! ## Vector math (`src/similarity/cosine.ts`)

Numbers are modelled as real numbers (IEEE rounding abstracted); the
accumulation loops are modelled by folds over the vector\'s elements. -/

/-- `dotProduct` from `cosine.ts`: throws on a length mismatch (modelled as
`none`), otherwise the sum of element-wise products. -/
noncomputable def dotProduct (a b : List ℝ) : Option ℝ :=
  if a.length = b.length then some ((List.zipWith (fun x y => x * y) a b).sum)
  else none

/-- `norm` from `cosine.ts`: the Euclidean norm. -/
noncomputable def l2norm (v : List ℝ) : ℝ :=
  Real.sqrt ((v.map (fun x => x * x)).sum)

/-- `normalize` from `cosine.ts`: scale to unit norm, or return the zero
vector of the same length when the norm is `0`. -/
noncomputable def normalizeVec (v : List ℝ) : List ℝ :=
  if l2norm v = 0 then List.replicate v.length 0
  else v.map (fun x => x / l2norm v)

/-- `cosineSimilarityNormalized` from `cosine.ts`: just the dot product (the
inputs are assumed normalized); inherits `dotProduct`\'s mismatch throw. -/
noncomputable def cosineSimilarityNormalized (a b : List ℝ) : Option ℝ :=
  dotProduct a b

/-! ## Path handling of the index (`embeddingsIndex.ts`) -/

/-- `path.replace(/\\\\/g, "/")`. -/
def replaceBackslashes (p : List Char) : List Char :=
  p.map (fun c => if c = '\\' then '/' else c)

/-- `path.toLowerCase()`, per character. -/
def jsToLower (p : List Char) : List Char :=
  p.map Char.toLower

/-- The private `normalizePath` method of `EmbeddingsIndex`: forward slashes
and lowercase (the index\'s canonical form for comparisons). -/
def canonPath (p : List Char) : List Char :=
  jsToLower (replaceBackslashes p)

/-- `path.endsWith(".md")`. -/
def endsWithMd (p : List Char) : Bool :=
  (".md").toList.isSuffixOf p

/-- `path.slice(0, -3)`: drop the final three characters. -/
def dropMd (p : List Char) : List Char :=
  p.take (p.length - 3)

/-- The private `getBasename` method of `EmbeddingsIndex`. -/
def idxBasename (p : List Char) : List Char :=
  (p.splitOn '/').getLastD []

/-! ## The JS `Map` model -/

/-- `Map.prototype.set`: replace in place when the key exists (JS keeps the
original insertion position), append otherwise. -/
def mapSet {V : Type} (m : List (List Char × V)) (k : List Char) (v : V) :
    List (List Char × V) :=
  match m with
  | [] => [(k, v)]
  | (k2, v2) :: rest => if k2 = k then (k, v) :: rest else (k2, v2) :: mapSet rest k v

/-- `Map.prototype.get`: the value of the first (only) pair with the key. -/
def mapGet {V : Type} (m : List (List Char × V)) (k : List Char) : Option V :=
  (m.find? (fun p => p.1 = k)).map (fun p => p.2)

/-! ## Index state (`EmbeddingsIndex`) -/

/-- `EmbeddingEntry` from `parsers/types.ts` (a parsed record). -/
structure EmbeddingEntry where
  path : List Char
  vector : List ℝ

/-- `IndexEntry` from `embeddingsIndex.ts` (vector pre-normalized). -/
structure IndexEntry where
  path : List Char
  normalizedVector : List ℝ

/-- The mutable fields of the `EmbeddingsIndex` class. -/
structure IndexState where
  pathIndex : List (List Char × List ℝ)
  entries : List IndexEntry
  loaded : Bool
  entryCount : Nat
  formatDescription : List Char

/-- The state of a fresh index, also the result of `clear()`. -/
def emptyIndex : IndexState :=
  { pathIndex := [], entries := [], loaded := false, entryCount := 0,
    formatDescription := [] }

/-- `clear()` from `embeddingsIndex.ts`. -/
def clearIndex (_st : IndexState) : IndexState := emptyIndex

/-- `isLoaded()`. -/
def isLoaded (st : IndexState) : Bool := st.loaded

/-- `getEntryCount()`. -/
def getEntryCount (st : IndexState) : Nat := st.entryCount

/-- `addPathVariants` from `embeddingsIndex.ts`: register the normalized
vector under the path, the path without `.md`, and (when different) the
lowercase variants. -/
def addPathVariants (st : IndexState) (path : List Char) (vector : List ℝ) :
    IndexState :=
  let m1 := mapSet st.pathIndex path vector
  let m2 := if endsWithMd path then mapSet m1 (dropMd path) vector else m1
  let lowerPath := jsToLower path
  let m4 :=
    if lowerPath ≠ path then
      let m3 := mapSet m2 lowerPath vector
      if endsWithMd lowerPath then mapSet m3 (dropMd lowerPath) vector else m3
    else m2
  { st with pathIndex := m4 }

/-- The loop body of `buildIndex`: normalize the entry\'s vector, register
its path variants, append it to the entry list. -/
noncomputable def buildStep (st : IndexState) (e : EmbeddingEntry) : IndexState :=
  let normalizedVec := normalizeVec e.vector
  let st1 := addPathVariants st e.path normalizedVec
  { st1 with entries := st1.entries ++ [⟨e.path, normalizedVec⟩] }

/-- The loop of `buildIndex` over the parsed entries. -/
noncomputable def buildLoop : IndexState → List EmbeddingEntry → IndexState
  | st, [] => st
  | st, e :: rest => buildLoop (buildStep st e) rest

/-- `buildIndex` from `embeddingsIndex.ts`: run the loop, then set
`entryCount` to the number of parsed entries. -/
noncomputable def buildIndex (st : IndexState) (entries : List EmbeddingEntry) :
    IndexState :=
  { buildLoop st entries with entryCount := entries.length }

/-- `getVectorForFile` from `embeddingsIndex.ts`: exact, slash-normalized,
without `.md`, lowercase, lowercase without `.md`, basename, basename without
`.md`. -/
def getVectorForFile (st : IndexState) (filePath : List Char) : Option (List ℝ) :=
  match mapGet st.pathIndex filePath with
  | some v => some v
  | none =>
    let normalized := replaceBackslashes filePath
    match mapGet st.pathIndex normalized with
    | some v => some v
    | none =>
      match (if endsWithMd normalized then mapGet st.pathIndex (dropMd normalized)
             else none) with
      | some v => some v
      | none =>
        let lower := jsToLower normalized
        match mapGet st.pathIndex lower with
        | some v => some v
        | none =>
          match (if endsWithMd lower then mapGet st.pathIndex (dropMd lower)
                 else none) with
          | some v => some v
          | none =>
            let basename := idxBasename normalized
            match mapGet st.pathIndex basename with
            | some v => some v
            | none =>
              if endsWithMd basename then mapGet st.pathIndex (dropMd basename)
              else none

/-- `FindNearestOptions` from `embeddingsIndex.ts` (`k` is an integer so that
the claims about `k ≤ 0` are statable; the JS callers pass integers). -/
structure FindNearestOptions where
  k : Int
  threshold : ℝ
  excludePaths : List (List Char)
  excludeFolders : List (List Char)

/-- `NearestResult` from `embeddingsIndex.ts`. -/
structure NearestResult where
  path : List Char
  score : ℝ

/-- `isInExcludedFolder` from `embeddingsIndex.ts`. -/
def isInExcludedFolder (path : List Char) (excludeFolders : List (List Char)) :
    Bool :=
  let normalizedPath := jsToLower (canonPath path)
  excludeFolders.any (fun folder =>
    let normalizedFolder := jsToLower (replaceBackslashes folder)
    (normalizedFolder ++ ['/']).isPrefixOf normalizedPath ||
      normalizedPath = normalizedFolder)

/-- `Array.prototype.slice(0, k)` for an integer `k`: a negative end counts
from the end of the array. -/
def jsSlice {α : Type} (l : List α) (k : Int) : List α :=
  if k < 0 then l.take (l.length - k.natAbs) else l.take k.toNat

/-- The scan loop of `findNearest`: skip excluded entries, compute the
similarity against every other entry (a dimension mismatch throws out of the
whole call, modelled as `none`), keep entries whose score reaches the
threshold, in entry order. -/
noncomputable def scanEntries (normalizedQuery : List ℝ) (threshold : ℝ)
    (excludePathSet : List (List Char)) (excludeFolders : List (List Char)) :
    List IndexEntry → Option (List NearestResult)
  | [] => some []
  | e :: rest =>
    if excludePathSet.contains (canonPath e.path) then
      scanEntries normalizedQuery threshold excludePathSet excludeFolders rest
    else if isInExcludedFolder e.path excludeFolders then
      scanEntries normalizedQuery threshold excludePathSet excludeFolders rest
    else
      match cosineSimilarityNormalized normalizedQuery e.normalizedVector with
      | none => none
      | some score =>
        if threshold ≤ score then
          (scanEntries normalizedQuery threshold excludePathSet excludeFolders
            rest).map (fun tailRes => ⟨e.path, score⟩ :: tailRes)
        else
          scanEntries normalizedQuery threshold excludePathSet excludeFolders rest

/-- The survivors of the scan of `findNearest` (threshold filtering and
exclusions applied, in entry order). -/
noncomputable def scanResults (st : IndexState) (queryVector : List ℝ)
    (options : FindNearestOptions) : Option (List NearestResult) :=
  scanEntries (normalizeVec queryVector) options.threshold
    (options.excludePaths.map canonPath) options.excludeFolders st.entries

/-- One step of the deduplication loop of `findNearest`: keep the existing
entry unless the new score is strictly higher. -/
noncomputable def dedupStep (m : List (List Char × NearestResult))
    (r : NearestResult) : List (List Char × NearestResult) :=
  let key := canonPath r.path
  match mapGet m key with
  | none => mapSet m key r
  | some existing => if existing.score < r.score then mapSet m key r else m

/-- The deduplication of `findNearest`: best score per canonical path, values
in first-insertion order (JS `Map` semantics). -/
noncomputable def dedupByPath (results : List NearestResult) :
    List NearestResult :=
  (results.foldl dedupStep []).map (fun p => p.2)

/-- Stable insertion into a score-descending list (model of the stable
`Array.prototype.sort` with comparator `(a, b) => b.score - a.score`). -/
noncomputable def insertDesc (x : NearestResult) :
    List NearestResult → List NearestResult
  | [] => [x]
  | y :: ys => if x.score < y.score then y :: insertDesc x ys else x :: y :: ys

/-- Stable sort by score descending. -/
noncomputable def sortByScoreDesc : List NearestResult → List NearestResult
  | [] => []
  | x :: xs => insertDesc x (sortByScoreDesc xs)

/-- `findNearest` from `embeddingsIndex.ts`: empty when not loaded, otherwise
scan, deduplicate, sort descending, return the first `k`. -/
noncomputable def findNearest (st : IndexState) (queryVector : List ℝ)
    (options : FindNearestOptions) : Option (List NearestResult) :=
  if st.loaded then
    (scanResults st queryVector options).map
      (fun results => jsSlice (sortByScoreDesc (dedupByPath results)) options.k)
  else some []


/-! ## Lemmas about the `Map` model -/

theorem mapSet_mem {V : Type} {m : List (List Char × V)} {k : List Char} {v : V}
    {p : List Char × V} (h : p ∈ mapSet m k v) : p = (k, v) ∨ p ∈ m := by
  induction m with
  | nil => simpa [mapSet] using h
  | cons q rest ih =>
    by_cases hk : q.1 = k
    · rw [show q = (q.1, q.2) from rfl] at h
      simp only [mapSet, if_pos hk] at h
      rcases List.mem_cons.mp h with h | h
      · exact Or.inl h
      · exact Or.inr (List.mem_cons_of_mem _ h)
    · rw [show q = (q.1, q.2) from rfl] at h
      simp only [mapSet, if_neg hk] at h
      rcases List.mem_cons.mp h with h | h
      · exact Or.inr (by rw [h]; exact List.mem_cons_self _ _)
      · rcases ih h with h | h
        · exact Or.inl h
        · exact Or.inr (List.mem_cons_of_mem _ h)

theorem mapSet_mem_of_ne {V : Type} {m : List (List Char × V)} {k : List Char}
    {v : V} {p : List Char × V} (hp : p ∈ m) (hne : p.1 ≠ k) :
    p ∈ mapSet m k v := by
  induction m with
  | nil => simp at hp
  | cons q rest ih =>
    rw [show q = (q.1, q.2) from rfl]
    by_cases hk : q.1 = k
    · simp only [mapSet, if_pos hk]
      rcases List.mem_cons.mp hp with h | h
      · exact absurd (by rw [h]; exact hk) hne
      · exact List.mem_cons_of_mem _ h
    · simp only [mapSet, if_neg hk]
      rcases List.mem_cons.mp hp with h | h
      · exact h ▸ List.mem_cons_self _ _
      · exact List.mem_cons_of_mem _ (ih h)

theorem mapSet_self_mem {V : Type} (m : List (List Char × V)) (k : List Char)
    (v : V) : (k, v) ∈ mapSet m k v := by
  induction m with
  | nil => simp [mapSet]
  | cons q rest ih =>
    rw [show q = (q.1, q.2) from rfl]
    by_cases hk : q.1 = k
    · simp [mapSet, if_pos hk]
    · simp only [mapSet, if_neg hk]
      exact List.mem_cons_of_mem _ ih

theorem mapGet_eq_none_iff {V : Type} {m : List (List Char × V)} {k : List Char} :
    mapGet m k = none ↔ ∀ p ∈ m, p.1 ≠ k := by
  simp only [mapGet, Option.map_eq_none', List.find?_eq_none, decide_eq_true_eq]

theorem mapGet_some_mem {V : Type} {m : List (List Char × V)} {k : List Char}
    {v : V} (h : mapGet m k = some v) : (k, v) ∈ m := by
  simp only [mapGet, Option.map_eq_some'] at h
  obtain ⟨p, hp, rfl⟩ := h
  have hmem := List.mem_of_find?_eq_some hp
  have hkey : p.1 = k := by simpa using List.find?_some hp
  have hpair : (k, p.2) = p := by rw [← hkey]
  rw [hpair]
  exact hmem

theorem mapSet_append_of_none {V : Type} {m : List (List Char × V)}
    {k : List Char} (v : V) (h : mapGet m k = none) :
    mapSet m k v = m ++ [(k, v)] := by
  induction m with
  | nil => rfl
  | cons q rest ih =>
    have hq : q.1 ≠ k := mapGet_eq_none_iff.mp h q (List.mem_cons_self _ _)
    have hrest : mapGet rest k = none := by
      rw [mapGet_eq_none_iff]
      exact fun p hp => mapGet_eq_none_iff.mp h p (List.mem_cons_of_mem _ hp)
    rw [show q = (q.1, q.2) from rfl]
    simp only [mapSet, if_neg hq, ih hrest, List.cons_append]

/-- Key-distinctness of the association-list model. -/
def KeysDistinct {V : Type} (m : List (List Char × V)) : Prop :=
  m.Pairwise (fun p q => p.1 ≠ q.1)

theorem mapSet_keysDistinct {V : Type} {m : List (List Char × V)}
    (k : List Char) (v : V) (h : KeysDistinct m) :
    KeysDistinct (mapSet m k v) := by
  induction m with
  | nil => simp [mapSet, KeysDistinct]
  | cons q rest ih =>
    obtain ⟨hhead, hrest⟩ := List.pairwise_cons.mp h
    rw [show q = (q.1, q.2) from rfl]
    by_cases hk : q.1 = k
    · simp only [mapSet, if_pos hk]
      exact List.pairwise_cons.mpr ⟨fun p hp => by
        rw [← hk]; exact hhead p hp, hrest⟩
    · simp only [mapSet, if_neg hk]
      refine List.pairwise_cons.mpr ⟨fun p hp => ?_, ih hrest⟩
      rcases mapSet_mem hp with rfl | hp
      · exact hk
      · exact hhead p hp

theorem keysDistinct_unique {V : Type} {m : List (List Char × V)}
    (h : KeysDistinct m) {p q : List Char × V} (hp : p ∈ m) (hq : q ∈ m)
    (hk : p.1 = q.1) : p = q := by
  induction m with
  | nil => simp at hp
  | cons a rest ih =>
    obtain ⟨hhead, hrest⟩ := List.pairwise_cons.mp h
    rcases List.mem_cons.mp hp with hp1 | hp1
    · rcases List.mem_cons.mp hq with hq1 | hq1
      · rw [hp1, hq1]
      · rw [hp1] at hk
        exact absurd hk (hhead q hq1)
    · rcases List.mem_cons.mp hq with hq1 | hq1
      · rw [hq1] at hk
        exact absurd hk.symm (hhead p hp1)
      · exact ih hrest hp1 hq1

theorem mapGet_unique {V : Type} {m : List (List Char × V)} (h : KeysDistinct m)
    {k : List Char} {v : V} (hget : mapGet m k = some v) {p : List Char × V}
    (hp : p ∈ m) (hpk : p.1 = k) : p = (k, v) :=
  keysDistinct_unique h hp (mapGet_some_mem hget) (by rw [hpk])


/-! ## The deduplication invariant -/

/-- Invariant of the dedup loop after processing `done`: keys are distinct,
every stored value is a processed result stored under its canonical path, and
every processed result is dominated by the stored value for its canonical
path. -/
def DedupInv (done : List NearestResult)
    (m : List (List Char × NearestResult)) : Prop :=
  KeysDistinct m ∧
  (∀ p ∈ m, p.2 ∈ done ∧ canonPath p.2.path = p.1) ∧
  (∀ s ∈ done, ∃ p ∈ m, p.1 = canonPath s.path ∧ s.score ≤ p.2.score)

theorem dedupStep_inv {done : List NearestResult}
    {m : List (List Char × NearestResult)} {r : NearestResult}
    (h : DedupInv done m) : DedupInv (done ++ [r]) (dedupStep m r) := by
  obtain ⟨ha, hb, hc⟩ := h
  rw [dedupStep]
  cases hget : mapGet m (canonPath r.path) with
  | none =>
    simp only
    rw [mapSet_append_of_none r hget]
    refine ⟨?_, ?_, ?_⟩
    · rw [KeysDistinct, List.pairwise_append]
      exact ⟨ha, by simp, fun p hp q hq => by
        rw [List.mem_singleton.mp hq]
        exact mapGet_eq_none_iff.mp hget p hp⟩
    · intro p hp
      rcases List.mem_append.mp hp with hp | hp
      · exact ⟨List.mem_append_left _ (hb p hp).1, (hb p hp).2⟩
      · rw [List.mem_singleton.mp hp]
        exact ⟨List.mem_append_right _ (List.mem_singleton_self _), rfl⟩
    · intro sR hs
      rcases List.mem_append.mp hs with hs | hs
      · obtain ⟨p, hp, hpk, hps⟩ := hc sR hs
        exact ⟨p, List.mem_append_left _ hp, hpk, hps⟩
      · rw [List.mem_singleton.mp hs]
        exact ⟨(canonPath r.path, r), List.mem_append_right _ (List.mem_singleton_self _),
          rfl, le_refl _⟩
  | some existing =>
    simp only
    by_cases hlt : existing.score < r.score
    · rw [if_pos hlt]
      refine ⟨mapSet_keysDistinct _ _ ha, ?_, ?_⟩
      · intro p hp
        rcases mapSet_mem hp with rfl | hp
        · exact ⟨List.mem_append_right _ (List.mem_singleton_self _), rfl⟩
        · exact ⟨List.mem_append_left _ (hb p hp).1, (hb p hp).2⟩
      · intro sR hs
        rcases List.mem_append.mp hs with hs | hs
        · obtain ⟨p, hp, hpk, hps⟩ := hc sR hs
          by_cases hk : p.1 = canonPath r.path
          · have hpe : p = (canonPath r.path, existing) := mapGet_unique ha hget hp hk
            refine ⟨(canonPath r.path, r), mapSet_self_mem _ _ _, by rw [← hpk, hk], ?_⟩
            have : sR.score ≤ existing.score := by
              have := hps
              rw [hpe] at this
              exact this
            exact le_of_lt (lt_of_le_of_lt this hlt)
          · exact ⟨p, mapSet_mem_of_ne hp hk, hpk, hps⟩
        · rw [List.mem_singleton.mp hs]
          exact ⟨(canonPath r.path, r), mapSet_self_mem _ _ _, rfl, le_refl _⟩
    · rw [if_neg hlt]
      refine ⟨ha, ?_, ?_⟩
      · intro p hp
        exact ⟨List.mem_append_left _ (hb p hp).1, (hb p hp).2⟩
      · intro sR hs
        rcases List.mem_append.mp hs with hs | hs
        · obtain ⟨p, hp, hpk, hps⟩ := hc sR hs
          exact ⟨p, hp, hpk, hps⟩
        · rw [List.mem_singleton.mp hs]
          exact ⟨(canonPath r.path, existing), mapGet_some_mem hget, rfl,
            le_of_not_lt hlt⟩

theorem dedup_fold_inv (rs : List NearestResult) :
    ∀ done m, DedupInv done m → DedupInv (done ++ rs) (rs.foldl dedupStep m) := by
  induction rs with
  | nil => intro done m h; simpa using h
  | cons r rest ih =>
    intro done m h
    have h2 := ih (done ++ [r]) (dedupStep m r) (dedupStep_inv h)
    simpa using h2

theorem dedup_inv (rs : List NearestResult) :
    DedupInv rs (rs.foldl dedupStep []) := by
  have hbase : DedupInv [] [] := by
    refine ⟨List.Pairwise.nil, ?_, ?_⟩
    · intro p hp
      simp at hp
    · intro sR hs
      simp at hs
  have := dedup_fold_inv rs [] [] hbase
  simpa using this

/-- The values of the dedup map have pairwise distinct canonical paths. -/
theorem dedupByPath_pairwise (rs : List NearestResult) :
    (dedupByPath rs).Pairwise
      (fun a b => canonPath a.path ≠ canonPath b.path) := by
  obtain ⟨ha, hb, -⟩ := dedup_inv rs
  rw [dedupByPath, List.pairwise_map]
  refine ha.imp_of_mem ?_
  intro p q hp hq hne
  rw [(hb p hp).2, (hb q hq).2]
  exact hne

/-- Every dedup survivor is a scanned result and dominates every scanned
result with its canonical path. -/
theorem dedupByPath_spec (rs : List NearestResult) :
    ∀ v ∈ dedupByPath rs, v ∈ rs ∧
      ∀ s ∈ rs, canonPath s.path = canonPath v.path → s.score ≤ v.score := by
  obtain ⟨ha, hb, hc⟩ := dedup_inv rs
  intro v hv
  rw [dedupByPath, List.mem_map] at hv
  obtain ⟨p, hp, rfl⟩ := hv
  refine ⟨(hb p hp).1, ?_⟩
  intro sR hs hk
  obtain ⟨q, hq, hqk, hqs⟩ := hc sR hs
  have : q = p := keysDistinct_unique ha hq hp (by rw [hqk, hk, (hb p hp).2])
  rw [this] at hqs
  exact hqs

/-! ## Sorting lemmas -/

theorem insertDesc_perm (x : NearestResult) (l : List NearestResult) :
    List.Perm (insertDesc x l) (x :: l) := by
  induction l with
  | nil => exact List.Perm.refl _
  | cons y ys ih =>
    rw [insertDesc]
    by_cases hxy : x.score < y.score
    · rw [if_pos hxy]
      exact (List.Perm.cons y ih).trans (List.Perm.swap x y ys)
    · rw [if_neg hxy]

theorem sortByScoreDesc_perm (l : List NearestResult) :
    List.Perm (sortByScoreDesc l) l := by
  induction l with
  | nil => exact List.Perm.refl _
  | cons x xs ih =>
    rw [sortByScoreDesc]
    exact (insertDesc_perm x (sortByScoreDesc xs)).trans (List.Perm.cons x ih)

theorem insertDesc_sorted {l : List NearestResult} (x : NearestResult)
    (h : l.Pairwise (fun a b => b.score ≤ a.score)) :
    (insertDesc x l).Pairwise (fun a b => b.score ≤ a.score) := by
  induction l with
  | nil => simp [insertDesc]
  | cons y ys ih =>
    obtain ⟨hhead, hrest⟩ := List.pairwise_cons.mp h
    rw [insertDesc]
    by_cases hxy : x.score < y.score
    · rw [if_pos hxy]
      refine List.pairwise_cons.mpr ⟨?_, ih hrest⟩
      intro z hz
      rcases List.mem_cons.mp ((insertDesc_perm x ys).mem_iff.mp hz) with rfl | hz2
      · exact le_of_lt hxy
      · exact hhead z hz2
    · rw [if_neg hxy]
      refine List.pairwise_cons.mpr ⟨?_, h⟩
      intro z hz
      rcases List.mem_cons.mp hz with rfl | hz
      · exact le_of_not_lt hxy
      · exact le_trans (hhead z hz) (le_of_not_lt hxy)

theorem sortByScoreDesc_sorted (l : List NearestResult) :
    (sortByScoreDesc l).Pairwise (fun a b => b.score ≤ a.score) := by
  induction l with
  | nil => simp [sortByScoreDesc]
  | cons x xs ih =>
    rw [sortByScoreDesc]
    exact insertDesc_sorted x ih

/-! ## Scan and slice lemmas -/

theorem scanEntries_threshold {normalizedQuery : List ℝ} {threshold : ℝ}
    {excludePathSet excludeFolders : List (List Char)} {es : List IndexEntry}
    {rs : List NearestResult}
    (h : scanEntries normalizedQuery threshold excludePathSet excludeFolders es
      = some rs) :
    ∀ r ∈ rs, threshold ≤ r.score := by
  induction es generalizing rs with
  | nil =>
    simp only [scanEntries, Option.some.injEq] at h
    rw [← h]
    simp
  | cons e rest ih =>
    rw [scanEntries] at h
    by_cases h1 : excludePathSet.contains (canonPath e.path)
    · rw [if_pos h1] at h
      exact ih h
    · rw [if_neg h1] at h
      by_cases h2 : isInExcludedFolder e.path excludeFolders = true
      · rw [if_pos h2] at h
        exact ih h
      · rw [if_neg h2] at h
        cases hdot : cosineSimilarityNormalized normalizedQuery e.normalizedVector with
        | none => simp [hdot] at h
        | some score =>
          simp only [hdot] at h
          by_cases h3 : threshold ≤ score
          · rw [if_pos h3, Option.map_eq_some'] at h
            obtain ⟨tailRes, htail, rfl⟩ := h
            intro r hr
            rcases List.mem_cons.mp hr with rfl | hr
            · exact h3
            · exact ih htail r hr
          · rw [if_neg h3] at h
            exact ih h

theorem jsSlice_sublist {α : Type} (l : List α) (k : Int) :
    List.Sublist (jsSlice l k) l := by
  rw [jsSlice]
  by_cases hk : k < 0
  · rw [if_pos hk]; exact List.take_sublist _ _
  · rw [if_neg hk]; exact List.take_sublist _ _

theorem jsSlice_length_le {α : Type} (l : List α) {k : Int} (hk : 0 ≤ k) :
    ((jsSlice l k).length : Int) ≤ k := by
  rw [jsSlice, if_neg (by omega)]
  have h1 : (l.take k.toNat).length ≤ k.toNat := by
    simp [List.length_take]
  omega


/-! ## Claims C2, C3, C4 -/

/-- C2: a successful `findNearest` never returns two results with the same
canonicalized path (backslashes to slashes, lowercased), and each returned
result is a surviving scanned entry that dominates—by score—every surviving
entry with the same canonical path. -/
theorem findNearest_dedup_correct (st : IndexState) (q : List ℝ)
    (opts : FindNearestOptions) (out rs : List NearestResult)
    (hscan : scanResults st q opts = some rs)
    (h : findNearest st q opts = some out) :
    out.Pairwise (fun a b => canonPath a.path ≠ canonPath b.path) ∧
    ∀ r ∈ out, r ∈ rs ∧
      ∀ s ∈ rs, canonPath s.path = canonPath r.path → s.score ≤ r.score := by
  rw [findNearest] at h
  by_cases hl : st.loaded
  · rw [if_pos hl, hscan, Option.map_some'] at h
    have hout : out = jsSlice (sortByScoreDesc (dedupByPath rs)) opts.k :=
      (Option.some.inj h).symm
    subst hout
    constructor
    · have h1 := dedupByPath_pairwise rs
      have h2 := ((sortByScoreDesc_perm (dedupByPath rs)).pairwise_iff
        (fun hab => hab.symm)).mpr h1
      exact h2.sublist (jsSlice_sublist _ _)
    · intro r hr
      have hr2 : r ∈ sortByScoreDesc (dedupByPath rs) :=
        (jsSlice_sublist _ _).subset hr
      have hr3 : r ∈ dedupByPath rs := (sortByScoreDesc_perm _).mem_iff.mp hr2
      exact dedupByPath_spec rs r hr3
  · rw [if_neg hl] at h
    have hout : out = [] := (Option.some.inj h).symm
    subst hout
    exact ⟨List.Pairwise.nil, by simp⟩

/-- C3 (amended): a successful `findNearest` returns at most `k` results when
`k ≥ 0` (for negative `k` the `slice(0, k)` keeps all but the last `|k|`
results instead), and its results always meet the threshold and are sorted by
score descending. -/
theorem findNearest_sorted_bounded (st : IndexState) (q : List ℝ)
    (opts : FindNearestOptions) (out : List NearestResult)
    (h : findNearest st q opts = some out) :
    (0 ≤ opts.k → ((out.length : Int) ≤ opts.k)) ∧
    (∀ r ∈ out, opts.threshold ≤ r.score) ∧
    out.Pairwise (fun a b => b.score ≤ a.score) := by
  rw [findNearest] at h
  by_cases hl : st.loaded
  · rw [if_pos hl, Option.map_eq_some'] at h
    obtain ⟨rs, hscan, rfl⟩ := h
    rw [scanResults] at hscan
    refine ⟨fun hk => jsSlice_length_le _ hk, ?_, ?_⟩
    · intro r hr
      have hr2 : r ∈ sortByScoreDesc (dedupByPath rs) :=
        (jsSlice_sublist _ _).subset hr
      have hr3 : r ∈ dedupByPath rs := (sortByScoreDesc_perm _).mem_iff.mp hr2
      exact scanEntries_threshold hscan r (dedupByPath_spec rs r hr3).1
    · exact (sortByScoreDesc_sorted _).sublist (jsSlice_sublist _ _)
  · rw [if_neg hl] at h
    have hout : out = [] := (Option.some.inj h).symm
    subst hout
    exact ⟨by simp, by simp, List.Pairwise.nil⟩

/-- C4 (amended): a successful `findNearest` with `k = 0` returns the empty
list (the claim\'s extension to negative `k` fails, see the counterexample). -/
theorem findNearest_k_zero (st : IndexState) (q : List ℝ)
    (opts : FindNearestOptions) (out : List NearestResult)
    (h : findNearest st q opts = some out) (hk : opts.k = 0) : out = [] := by
  rw [findNearest] at h
  by_cases hl : st.loaded
  · rw [if_pos hl, Option.map_eq_some'] at h
    obtain ⟨rs, -, rfl⟩ := h
    simp [jsSlice, hk]
  · rw [if_neg hl] at h
    exact (Option.some.inj h).symm


/-! ## Concrete evaluation of the search pipeline -/

theorem normalizeVec_10 : normalizeVec [(1 : ℝ), 0] = [1, 0] := by
  have hsum : (([(1 : ℝ), 0]).map (fun x => x * x)).sum = 1 := by norm_num
  have hn : l2norm [(1 : ℝ), 0] = 1 := by rw [l2norm, hsum, Real.sqrt_one]
  rw [normalizeVec, hn]
  norm_num

/-- The concrete loaded two-entry index used to instantiate the search
claims (its stored vectors are already unit-normalized). -/
noncomputable def stC : IndexState :=
  { pathIndex := [], entries :=
      [⟨("x.md").toList, [1, 0]⟩, ⟨("y.md").toList, [0, 1]⟩],
    loaded := true, entryCount := 2, formatDescription := [] }

theorem scan_stC :
    scanEntries [(1 : ℝ), 0] 0 [] [] stC.entries
      = some [⟨("x.md").toList, (1 : ℝ)⟩, ⟨("y.md").toList, (0 : ℝ)⟩] := by
  have hd1 : cosineSimilarityNormalized [(1 : ℝ), 0] [1, 0] = some 1 := by
    rw [cosineSimilarityNormalized, dotProduct]
    norm_num
  have hd2 : cosineSimilarityNormalized [(1 : ℝ), 0] [0, 1] = some 0 := by
    rw [cosineSimilarityNormalized, dotProduct]
    norm_num
  have hfold : isInExcludedFolder (("x.md").toList) [] = false := by
    simp [isInExcludedFolder]
  have hfold2 : isInExcludedFolder (("y.md").toList) [] = false := by
    simp [isInExcludedFolder]
  show scanEntries [(1 : ℝ), 0] 0 [] []
      [⟨("x.md").toList, [1, 0]⟩, ⟨("y.md").toList, [0, 1]⟩] = _
  rw [scanEntries]
  simp only [List.contains_nil, Bool.false_eq_true, if_false, hfold, hd1,
    if_pos (le_refl (0 : ℝ))]
  rw [if_pos (by norm_num : (0 : ℝ) ≤ 1)]
  rw [scanEntries]
  simp only [List.contains_nil, Bool.false_eq_true, if_false, hfold2, hd2,
    if_pos (le_refl (0 : ℝ))]
  rw [scanEntries]
  simp


theorem dedup_stC :
    dedupByPath [⟨("x.md").toList, (1 : ℝ)⟩, ⟨("y.md").toList, (0 : ℝ)⟩]
      = [⟨("x.md").toList, (1 : ℝ)⟩, ⟨("y.md").toList, (0 : ℝ)⟩] := rfl

theorem sort_stC :
    sortByScoreDesc [⟨("x.md").toList, (1 : ℝ)⟩, ⟨("y.md").toList, (0 : ℝ)⟩]
      = [⟨("x.md").toList, (1 : ℝ)⟩, ⟨("y.md").toList, (0 : ℝ)⟩] := by
  rw [sortByScoreDesc, sortByScoreDesc, sortByScoreDesc]
  simp only [insertDesc]
  norm_num

/-- Full evaluation of `findNearest` on the concrete index, for every `k`:
the result is the `slice(0, k)` of the sorted deduplicated survivor list. -/
theorem findNearest_stC (k : Int) :
    findNearest stC [(1 : ℝ), 0] ⟨k, 0, [], []⟩
      = some (jsSlice
          [⟨("x.md").toList, (1 : ℝ)⟩, ⟨("y.md").toList, (0 : ℝ)⟩] k) := by
  have h1 : findNearest stC [(1 : ℝ), 0] ⟨k, 0, [], []⟩
      = (scanResults stC [(1 : ℝ), 0] ⟨k, 0, [], []⟩).map
          (fun results => jsSlice (sortByScoreDesc (dedupByPath results)) k) := rfl
  rw [h1, scanResults]
  simp only [List.map_nil, normalizeVec_10]
  rw [scan_stC, Option.map_some', dedup_stC, sort_stC]


theorem scanResults_stC (k : Int) :
    scanResults stC [(1 : ℝ), 0] ⟨k, 0, [], []⟩
      = some [⟨("x.md").toList, (1 : ℝ)⟩, ⟨("y.md").toList, (0 : ℝ)⟩] := by
  rw [scanResults]
  simp only [List.map_nil, normalizeVec_10]
  exact scan_stC

/-- C4 (counterexample): with `k = -1` (so `k ≤ 0`) on a loaded two-entry
index, `findNearest` returns one result — `slice(0, -1)` keeps all but the
last element — not the empty list. -/
theorem findNearest_neg_k_not_empty :
    findNearest stC [(1 : ℝ), 0] ⟨-1, 0, [], []⟩ ≠ some [] := by
  rw [findNearest_stC]
  have hslice : jsSlice
      ([⟨("x.md").toList, (1 : ℝ)⟩, ⟨("y.md").toList, (0 : ℝ)⟩]
        : List NearestResult) (-1)
      = [⟨("x.md").toList, (1 : ℝ)⟩] := rfl
  rw [hslice]
  simp

/-- C4 (witness): the amended claim at `k = 0` on the loaded index. -/
theorem findNearest_k_zero_witness :
    findNearest stC [(1 : ℝ), 0] ⟨0, 0, [], []⟩ = some [] := by
  have h := findNearest_k_zero stC [(1 : ℝ), 0] ⟨0, 0, [], []⟩
    (jsSlice [⟨("x.md").toList, (1 : ℝ)⟩, ⟨("y.md").toList, (0 : ℝ)⟩] 0)
    (findNearest_stC 0) rfl
  rw [findNearest_stC 0, h]

/-- C3 (counterexample): with `k = -2 + 1 = -1` the returned list has one
element, which is more than `k`; so "at most `k` elements" fails for negative
`k`. -/
theorem findNearest_neg_k_length :
    (findNearest stC [(1 : ℝ), 0] ⟨-1, 0, [], []⟩).map List.length = some 1
      ∧ ¬ ((1 : Int) ≤ (-1 : Int)) := by
  constructor
  · rw [findNearest_stC]
    rfl
  · decide

/-- C3 (witness): the amended claim instantiated on the loaded index with
`k = 5`, `threshold = 0`. -/
theorem findNearest_sorted_bounded_witness :
    ((0 : Int) ≤ (5 : Int) →
      ((([⟨("x.md").toList, (1 : ℝ)⟩, ⟨("y.md").toList, (0 : ℝ)⟩]
        : List NearestResult).length : Int) ≤ (5 : Int))) ∧
    (∀ r ∈ ([⟨("x.md").toList, (1 : ℝ)⟩, ⟨("y.md").toList, (0 : ℝ)⟩]
        : List NearestResult), (0 : ℝ) ≤ r.score) ∧
    ([⟨("x.md").toList, (1 : ℝ)⟩, ⟨("y.md").toList, (0 : ℝ)⟩]
        : List NearestResult).Pairwise (fun a b => b.score ≤ a.score) := by
  have hfind : findNearest stC [(1 : ℝ), 0] ⟨5, 0, [], []⟩
      = some [⟨("x.md").toList, (1 : ℝ)⟩, ⟨("y.md").toList, (0 : ℝ)⟩] := by
    rw [findNearest_stC]
    rfl
  exact findNearest_sorted_bounded stC [(1 : ℝ), 0] ⟨5, 0, [], []⟩ _ hfind

/-- C2 (witness): the deduplication claim instantiated on the loaded index. -/
theorem findNearest_dedup_correct_witness :
    ([⟨("x.md").toList, (1 : ℝ)⟩, ⟨("y.md").toList, (0 : ℝ)⟩]
        : List NearestResult).Pairwise
      (fun a b => canonPath a.path ≠ canonPath b.path) ∧
    ∀ r ∈ ([⟨("x.md").toList, (1 : ℝ)⟩, ⟨("y.md").toList, (0 : ℝ)⟩]
        : List NearestResult),
      r ∈ ([⟨("x.md").toList, (1 : ℝ)⟩, ⟨("y.md").toList, (0 : ℝ)⟩]
        : List NearestResult) ∧
      ∀ s ∈ ([⟨("x.md").toList, (1 : ℝ)⟩, ⟨("y.md").toList, (0 : ℝ)⟩]
        : List NearestResult),
        canonPath s.path = canonPath r.path → s.score ≤ r.score := by
  have hfind : findNearest stC [(1 : ℝ), 0] ⟨5, 0, [], []⟩
      = some [⟨("x.md").toList, (1 : ℝ)⟩, ⟨("y.md").toList, (0 : ℝ)⟩] := by
    rw [findNearest_stC]
    rfl
  exact findNearest_dedup_correct stC [(1 : ℝ), 0] ⟨5, 0, [], []⟩ _ _
    (scanResults_stC 5) hfind


/-! ## Claim C8: `dotProduct` -/

theorem zipWith_mul_sum :
    ∀ (a b : List ℝ), a.length = b.length →
      (List.zipWith (fun x y => x * y) a b).sum
        = ∑ i ∈ Finset.range a.length, a.getD i 0 * b.getD i 0 := by
  intro a
  induction a with
  | nil =>
    intro b hb
    simp
  | cons x a2 ih =>
    intro b hb
    cases b with
    | nil => simp at hb
    | cons y b2 =>
      simp only [List.length_cons, Nat.succ.injEq] at hb
      rw [List.zipWith_cons_cons, List.sum_cons, ih b2 hb]
      rw [List.length_cons, Finset.sum_range_succ']
      simp [List.getD_cons_succ, List.getD_cons_zero, add_comm]

/-- C8: `dotProduct` fails exactly when the vector lengths differ; with equal
lengths it returns the sum of the element-wise products.  (The model is a
pure function: the `none` outcome carries no state change.) -/
theorem dotProduct_spec (a b : List ℝ) :
    (dotProduct a b = none ↔ a.length ≠ b.length) ∧
    (a.length = b.length →
      dotProduct a b
        = some (∑ i ∈ Finset.range a.length, a.getD i 0 * b.getD i 0)) := by
  constructor
  · constructor
    · intro h hlen
      rw [dotProduct, if_pos hlen] at h
      simp at h
    · intro hlen
      rw [dotProduct, if_neg hlen]
  · intro hlen
    rw [dotProduct, if_pos hlen, zipWith_mul_sum a b hlen]

/-- C8 (witness): `dot([1,2],[3,4]) = 11` through the theorem. -/
theorem dotProduct_spec_witness : dotProduct [(1 : ℝ), 2] [3, 4] = some 11 := by
  have h := (dotProduct_spec [(1 : ℝ), 2] [3, 4]).2 rfl
  rw [h]
  norm_num [Finset.sum_range_succ]

/-! ## The decoded-JSON model and the format parsers -/

/-- Decoded JSON values (`JSON.parse` output); numbers are reals, object
fields are in source order with distinct keys. -/
inductive Json where
  | str (s : List Char)
  | num (x : ℝ)
  | jbool (b : Bool)
  | null
  | arr (items : List Json)
  | obj (fields : List (List Char × Json))

/-- Field access `obj[key]` / presence test `key in obj`. -/
def jsonGet (fields : List (List Char × Json)) (key : List Char) : Option Json :=
  (fields.find? (fun p => p.1 = key)).map (fun p => p.2)

/-- `typeof v === "number"` extraction. -/
def jsonNum? : Json → Option ℝ
  | .num x => some x
  | _ => none

/-- `toFloat32Array` from the parsers: an array whose elements are all
numbers, else `null`. -/
def toFloat32Array : Json → Option (List ℝ)
  | .arr items => items.mapM jsonNum?
  | _ => none

/-- The parsers\' `normalizePath`: backslashes to slashes, strip one leading
and one trailing slash. -/
def parserNormalizePath (path : List Char) : List Char :=
  let n1 := replaceBackslashes path
  let n2 := if n1.head? = some '/' then n1.drop 1 else n1
  if n2.getLast? = some '/' then n2.take (n2.length - 1) else n2

/-- `ParseResult` from `parsers/types.ts`. -/
structure ParseResult where
  entries : List EmbeddingEntry
  errorCount : Nat
  formatDescription : List Char

/-- `ManualMappingConfig` from `parsers/types.ts`. -/
structure ManualMappingConfig where
  pathKey : List Char
  embeddingKey : List Char

/-- The loop body of `VectorSearchParser.parse`: an element parses when it is
an object with a non-empty string `path` and a numeric-array `embedding`. -/
def parseVectorItem (item : Json) : Option EmbeddingEntry :=
  match item with
  | .obj fields =>
    match jsonGet fields (("path").toList) with
    | some (.str pathStr) =>
      if pathStr = [] then none
      else
        match jsonGet fields (("embedding").toList) with
        | some emb =>
          (toFloat32Array emb).map (fun vec => ⟨parserNormalizePath pathStr, vec⟩)
        | none => none
    | _ => none
  | _ => none

/-- `VectorSearchParser.parse` from `vectorSearchParser.ts`.  The per-item
loop is rendered as `filterMap`; since every item either parses or counts one
error, `errorCount` is the number of items minus the number of entries. -/
def vectorSearchParse (data : Json) : Option ParseResult :=
  match data with
  | .obj fields =>
    match jsonGet fields (("vectors").toList) with
    | some (.arr vectors) =>
      match vectors with
      | [] => some ⟨[], 0, ("Vector-search format (empty)").toList⟩
      | first :: _ =>
        match first with
        | .obj firstObj =>
          if (jsonGet firstObj (("path").toList)).isSome &&
              (jsonGet firstObj (("embedding").toList)).isSome then
            let entries := vectors.filterMap parseVectorItem
            let errorCount := vectors.length - entries.length
            if entries.length = 0 then none
            else
              let modelName :=
                match jsonGet fields (("modelName").toList) with
                | some (.str m) => m
                | _ => ("unknown").toList
              some ⟨entries, errorCount,
                ("Vector-search format (").toList ++ (Nat.repr vectors.length).toList ++
                  (" vectors, model: ").toList ++ modelName ++ (")").toList⟩
          else none
        | _ => none
    | _ => none
  | _ => none

/-- `PATH_KEYS` from `arrayParser.ts`. -/
def PATH_KEYS : List (List Char) :=
  [("path").toList, ("file").toList, ("filepath").toList, ("filePath").toList,
   ("notePath").toList, ("note_path").toList, ("name").toList]

/-- `EMBEDDING_KEYS` from `arrayParser.ts`. -/
def EMBEDDING_KEYS : List (List Char) :=
  [("embedding").toList, ("vector").toList, ("values").toList,
   ("embeddings").toList, ("vec").toList, ("emb").toList]

/-- `findValue` from `arrayParser.ts`: first present key wins. -/
def findValue (fields : List (List Char × Json)) :
    List (List Char) → Option Json
  | [] => none
  | k :: rest =>
    match jsonGet fields k with
    | some v => some v
    | none => findValue fields rest

/-- The loop body of `ArrayParser.parse`. -/
def parseArrayItem (pathKeys embeddingKeys : List (List Char)) (item : Json) :
    Option EmbeddingEntry :=
  match item with
  | .obj fields =>
    match findValue fields pathKeys with
    | some (.str pathStr) =>
      if pathStr = [] then none
      else
        match findValue fields embeddingKeys with
        | some emb =>
          (toFloat32Array emb).map (fun vec => ⟨parserNormalizePath pathStr, vec⟩)
        | none => none
    | _ => none
  | _ => none

/-- `ArrayParser.parse` from `arrayParser.ts`: a manual config with a
non-empty key replaces the candidate-key list by that single key; the whole
array is rejected only when no element parsed out of a non-empty input. -/
def arrayParse (data : Json) (config : Option ManualMappingConfig) :
    Option ParseResult :=
  match data with
  | .arr items =>
    match items with
    | [] => some ⟨[], 0, ("Empty array").toList⟩
    | first :: _ =>
      match first with
      | .obj _ =>
        let pathKeys :=
          match config with
          | some c => if c.pathKey ≠ [] then [c.pathKey] else PATH_KEYS
          | none => PATH_KEYS
        let embeddingKeys :=
          match config with
          | some c => if c.embeddingKey ≠ [] then [c.embeddingKey] else EMBEDDING_KEYS
          | none => EMBEDDING_KEYS
        let entries := items.filterMap (parseArrayItem pathKeys embeddingKeys)
        let errorCount := items.length - entries.length
        if entries.length = 0 ∧ errorCount = items.length then none
        else some ⟨entries, errorCount,
          ("Array of ").toList ++ (Nat.repr items.length).toList ++ (" objects").toList⟩
      | _ => none
  | _ => none

/-- `MapParser.parse` from `mapParser.ts`: a top-level object whose first
value is a non-empty array starting with a number. -/
def mapParse (data : Json) : Option ParseResult :=
  match data with
  | .obj fields =>
    match fields with
    | [] => some ⟨[], 0, ("Empty map").toList⟩
    | (_, firstValue) :: _ =>
      match firstValue with
      | .arr firstItems =>
        match firstItems with
        | [] => none
        | fv0 :: _ =>
          match fv0 with
          | .num _ =>
            let entries := fields.filterMap (fun kv =>
              (toFloat32Array kv.2).map (fun vec => ⟨parserNormalizePath kv.1, vec⟩))
            let errorCount := fields.length - entries.length
            if entries.length = 0 then none
            else some ⟨entries, errorCount,
              ("Map with ").toList ++ (Nat.repr fields.length).toList ++
                (" entries").toList⟩
          | _ => none
      | _ => none
  | _ => none

/-- `autoParseEmbeddings` from `parsers/index.ts`: vector-search, array, map,
in that priority order; first hit wins. -/
def autoParseEmbeddings (data : Json) : Option ParseResult :=
  match vectorSearchParse data with
  | some r => some r
  | none =>
    match arrayParse data none with
    | some r => some r
    | none => mapParse data

/-- `parseWithManualMapping` from `parsers/index.ts`. -/
def parseWithManualMapping (data : Json) (config : ManualMappingConfig) :
    Option ParseResult :=
  match arrayParse data (some config) with
  | some r => some r
  | none => mapParse data

/-! ## `loadFromFile` (claim C9) -/

/-- The load mode setting. -/
inductive LoadMode where
  | auto
  | manual

/-- The three failure classes of `loadFromFile`. -/
inductive LoadError where
  | fileNotFound
  | invalidJson
  | unrecognizedFormat

/-- The outcome of the I/O and JSON-decode steps of `loadFromFile` (reading
files and `JSON.parse` are external to the model). -/
inductive LoadInput where
  | fileNotFound
  | invalidJson
  | content (data : Json)

/-- `loadFromFile` from `embeddingsIndex.ts`: clear the index first, then
read/decode/parse; any failure throws with the index left cleared, success
rebuilds the index and marks it loaded.  The thrown error and the final state
of `this` are both returned. -/
noncomputable def loadFromFile (st : IndexState) (input : LoadInput)
    (mode : LoadMode) (manualConfig : Option ManualMappingConfig) :
    Option LoadError × IndexState :=
  let st1 := clearIndex st
  match input with
  | .fileNotFound => (some .fileNotFound, st1)
  | .invalidJson => (some .invalidJson, st1)
  | .content data =>
    let result :=
      match mode with
      | .auto => autoParseEmbeddings data
      | .manual => parseWithManualMapping data
          (manualConfig.getD ⟨("path").toList, ("embedding").toList⟩)
    match result with
    | none => (some .unrecognizedFormat, st1)
    | some r =>
      let st2 := buildIndex st1 r.entries
      (none, { st2 with formatDescription := r.formatDescription, loaded := true })


/-- C9: whenever `loadFromFile` fails — file not found, invalid JSON, or no
parser recognizing the format — the previously loaded index has already been
discarded: after the failed call the index is not loaded, the entry count is
`0`, and `findNearest` returns the empty list. -/
theorem loadFromFile_fail_clears (st : IndexState) (input : LoadInput)
    (mode : LoadMode) (cfg : Option ManualMappingConfig) (err : LoadError)
    (h : (loadFromFile st input mode cfg).1 = some err) :
    isLoaded (loadFromFile st input mode cfg).2 = false ∧
    getEntryCount (loadFromFile st input mode cfg).2 = 0 ∧
    ∀ (q : List ℝ) (opts : FindNearestOptions),
      findNearest (loadFromFile st input mode cfg).2 q opts = some [] := by
  have hempty : ∀ (q : List ℝ) (opts : FindNearestOptions),
      findNearest emptyIndex q opts = some [] := by
    intro q opts
    rw [findNearest, if_neg]
    simp [emptyIndex]
  cases input with
  | fileNotFound => exact ⟨rfl, rfl, hempty⟩
  | invalidJson => exact ⟨rfl, rfl, hempty⟩
  | content data =>
    cases mode with
    | auto =>
      cases hres : autoParseEmbeddings data with
      | none =>
        have heq : loadFromFile st (.content data) .auto cfg
            = (some .unrecognizedFormat, emptyIndex) := by
          simp [loadFromFile, hres, clearIndex]
        rw [heq]
        exact ⟨rfl, rfl, hempty⟩
      | some r =>
        have heq : (loadFromFile st (.content data) .auto cfg).1 = none := by
          simp [loadFromFile, hres]
        rw [heq] at h
        simp at h
    | manual =>
      cases hres : parseWithManualMapping data
          (cfg.getD ⟨("path").toList, ("embedding").toList⟩) with
      | none =>
        have hres2 : parseWithManualMapping data
            (cfg.getD ⟨['p', 'a', 't', 'h'],
              ['e', 'm', 'b', 'e', 'd', 'd', 'i', 'n', 'g']⟩) = none := hres
        have heq : loadFromFile st (.content data) .manual cfg
            = (some .unrecognizedFormat, emptyIndex) := by
          simp [loadFromFile, hres2, clearIndex]
        rw [heq]
        exact ⟨rfl, rfl, hempty⟩
      | some r =>
        have hres2 : parseWithManualMapping data
            (cfg.getD ⟨['p', 'a', 't', 'h'],
              ['e', 'm', 'b', 'e', 'd', 'd', 'i', 'n', 'g']⟩) = some r := hres
        have heq : (loadFromFile st (.content data) .manual cfg).1 = none := by
          simp [loadFromFile, hres2]
        rw [heq] at h
        simp at h

/-- C9 (witness): an invalid-JSON reload of the loaded concrete index leaves
it cleared. -/
theorem loadFromFile_fail_clears_witness :
    isLoaded (loadFromFile stC .invalidJson .auto none).2 = false ∧
    getEntryCount (loadFromFile stC .invalidJson .auto none).2 = 0 ∧
    ∀ (q : List ℝ) (opts : FindNearestOptions),
      findNearest (loadFromFile stC .invalidJson .auto none).2 q opts = some [] :=
  loadFromFile_fail_clears stC .invalidJson .auto none .invalidJson rfl


/-! ## Claim C10: `getVectorForFile` returns load-time-normalized vectors -/

theorem mapSet_val {V : Type} {m : List (List Char × V)} {k : List Char}
    {v : V} {p : List Char × V} (h : p ∈ mapSet m k v) : p.2 = v ∨ p ∈ m := by
  rcases mapSet_mem h with h2 | h2
  · exact Or.inl (by rw [h2])
  · exact Or.inr h2

/-- Every vector stored by `addPathVariants` is the given vector or was
already present. -/
theorem addPathVariants_mem {st : IndexState} {path : List Char}
    {vec : List ℝ} {p : List Char × List ℝ}
    (hp : p ∈ (addPathVariants st path vec).pathIndex) :
    p.2 = vec ∨ p ∈ st.pathIndex := by
  have step : ∀ (m : List (List Char × List ℝ)) (k : List Char),
      (∀ q ∈ m, q.2 = vec ∨ q ∈ st.pathIndex) →
      (∀ q ∈ mapSet m k vec, q.2 = vec ∨ q ∈ st.pathIndex) := by
    intro m k hm q hq
    rcases mapSet_val hq with h2 | h2
    · exact Or.inl h2
    · exact hm q h2
  have base : ∀ q ∈ st.pathIndex, q.2 = vec ∨ q ∈ st.pathIndex :=
    fun q hq => Or.inr hq
  revert hp
  rw [addPathVariants]
  simp only
  split
  · split
    · split
      · exact fun hp => step _ _ (step _ _ (step _ _ (step _ _ base))) p hp
      · exact fun hp => step _ _ (step _ _ (step _ _ base)) p hp
    · split
      · exact fun hp => step _ _ (step _ _ (step _ _ base)) p hp
      · exact fun hp => step _ _ (step _ _ base) p hp
  · split
    · exact fun hp => step _ _ (step _ _ base) p hp
    · exact fun hp => step _ _ base p hp

/-- Every vector stored by the build loop is the normalization of some
processed entry\'s vector, or was already present. -/
theorem buildLoop_values :
    ∀ (es : List EmbeddingEntry) (st : IndexState) (p : List Char × List ℝ),
      p ∈ (buildLoop st es).pathIndex →
      p ∈ st.pathIndex ∨ ∃ e ∈ es, p.2 = normalizeVec e.vector := by
  intro es
  induction es with
  | nil =>
    intro st p hp
    exact Or.inl hp
  | cons e rest ih =>
    intro st p hp
    rw [buildLoop] at hp
    rcases ih (buildStep st e) p hp with h2 | h2
    · have h3 : (buildStep st e).pathIndex
          = (addPathVariants st e.path (normalizeVec e.vector)).pathIndex := rfl
      rw [h3] at h2
      rcases addPathVariants_mem h2 with h4 | h4
      · exact Or.inr ⟨e, List.mem_cons_self _ _, h4⟩
      · exact Or.inl h4
    · obtain ⟨e2, he2, hv⟩ := h2
      exact Or.inr ⟨e2, List.mem_cons_of_mem _ he2, hv⟩

/-- A hit of `getVectorForFile` comes from the path index. -/
theorem getVectorForFile_mem {st : IndexState} {filePath : List Char}
    {w : List ℝ} (h : getVectorForFile st filePath = some w) :
    ∃ k, (k, w) ∈ st.pathIndex := by
  simp only [getVectorForFile] at h
  repeat' split at h
  all_goals
    first
    | exact Option.noConfusion h
    | exact ⟨_, mapGet_some_mem h⟩
    | (rename_i v heq
       exact ⟨_, mapGet_some_mem (Option.some.inj h ▸ heq)⟩)
    | (rename_i v heq
       split at heq
       · exact ⟨_, mapGet_some_mem (Option.some.inj h ▸ heq)⟩
       · exact Option.noConfusion heq)

theorem sum_map_div (l : List ℝ) (c : ℝ) :
    (l.map (fun x => x / c)).sum = l.sum / c := by
  induction l with
  | nil => simp
  | cons x rest ih => simp [ih, add_div]

/-- Normalizing a vector of nonzero norm yields a vector of norm `1`. -/
theorem l2norm_normalizeVec {v : List ℝ} (h : l2norm v ≠ 0) :
    l2norm (normalizeVec v) = 1 := by
  have hnn : 0 ≤ (v.map (fun x => x * x)).sum := by
    apply List.sum_nonneg
    intro x hx
    obtain ⟨y, -, rfl⟩ := List.mem_map.mp hx
    exact mul_self_nonneg y
  have hpos : 0 < (v.map (fun x => x * x)).sum := by
    rcases lt_or_eq_of_le hnn with h2 | h2
    · exact h2
    · exact absurd (by rw [l2norm, ← h2, Real.sqrt_zero]) h
  have hmul : l2norm v * l2norm v = (v.map (fun x => x * x)).sum := by
    rw [l2norm]
    exact Real.mul_self_sqrt hnn
  rw [normalizeVec, if_neg h, l2norm, List.map_map]
  have hcomp : ((fun x => x * x) ∘ fun x => x / l2norm v)
      = fun x => (x * x) / (l2norm v * l2norm v) := by
    funext x
    simp [Function.comp, div_mul_div_comm]
  rw [hcomp]
  have hdiv : (v.map (fun x => (x * x) / (l2norm v * l2norm v))).sum
      = (v.map (fun x => x * x)).sum / (l2norm v * l2norm v) := by
    rw [← sum_map_div, List.map_map]
    rfl
  rw [hdiv, hmul, div_self (ne_of_gt hpos), Real.sqrt_one]

/-- C10: on an index built from parsed entries, every vector returned by
`getVectorForFile` is the unit-normalization, computed at load time, of some
source entry\'s vector — and has L2 norm exactly `1` whenever that source
vector is nonzero. -/
theorem getVectorForFile_normalized (es : List EmbeddingEntry)
    (filePath : List Char) (w : List ℝ)
    (h : getVectorForFile (buildIndex emptyIndex es) filePath = some w) :
    ∃ e ∈ es, w = normalizeVec e.vector ∧
      (l2norm e.vector ≠ 0 → l2norm w = 1) := by
  obtain ⟨k, hk⟩ := getVectorForFile_mem h
  have hpi : (buildIndex emptyIndex es).pathIndex
      = (buildLoop emptyIndex es).pathIndex := rfl
  rw [hpi] at hk
  rcases buildLoop_values es emptyIndex (k, w) hk with h2 | h2
  · simp [emptyIndex] at h2
  · obtain ⟨e, he, hv⟩ := h2
    simp only at hv
    exact ⟨e, he, hv, fun hnz => by rw [hv]; exact l2norm_normalizeVec hnz⟩


/-- C10 (witness): looking up `a.md` on an index built from the single entry
`(a.md, [3,4])` returns the unit-normalized vector. -/
theorem getVectorForFile_normalized_witness :
    ∃ e ∈ ([⟨("a.md").toList, [(3 : ℝ), 4]⟩] : List EmbeddingEntry),
      normalizeVec [(3 : ℝ), 4] = normalizeVec e.vector ∧
      (l2norm e.vector ≠ 0 → l2norm (normalizeVec [(3 : ℝ), 4]) = 1) := by
  have hbuild : (buildIndex emptyIndex
        [⟨("a.md").toList, [(3 : ℝ), 4]⟩]).pathIndex
      = [(("a.md").toList, normalizeVec [(3 : ℝ), 4]),
         (("a").toList, normalizeVec [(3 : ℝ), 4])] := by
    simp +decide [buildIndex, buildLoop, buildStep, addPathVariants,
      emptyIndex, mapSet]
  have h1 : mapGet [(("a.md").toList, normalizeVec [(3 : ℝ), 4]),
        (("a").toList, normalizeVec [(3 : ℝ), 4])] (("a.md").toList)
      = some (normalizeVec [(3 : ℝ), 4]) := by
    rw [mapGet, List.find?_cons_of_pos]
    · rfl
    · decide
  have hget : getVectorForFile
        (buildIndex emptyIndex [⟨("a.md").toList, [(3 : ℝ), 4]⟩])
        (("a.md").toList)
      = some (normalizeVec [(3 : ℝ), 4]) := by
    rw [getVectorForFile, hbuild, h1]
  exact getVectorForFile_normalized _ _ _ hget


/-! ## Claim C1: the multi-chunk scenario -/

/-- The scenario JSON of the spec:
`{"vectors":[{"path":"a.md","embedding":[1,0]},{"path":"b.md","embedding":[0.9,0.1]},{"path":"a.md#chunk2","embedding":[0.99,0]}]}`. -/
noncomputable def scenarioJson : Json :=
  Json.obj [(("vectors").toList, Json.arr
    [Json.obj [(("path").toList, Json.str (("a.md").toList)),
               (("embedding").toList, Json.arr [Json.num 1, Json.num 0])],
     Json.obj [(("path").toList, Json.str (("b.md").toList)),
               (("embedding").toList, Json.arr [Json.num 0.9, Json.num 0.1])],
     Json.obj [(("path").toList, Json.str (("a.md#chunk2").toList)),
               (("embedding").toList, Json.arr [Json.num 0.99, Json.num 0])]])]

/-- The entries the vector-search parser extracts from the scenario JSON. -/
noncomputable def scenarioEntries : List EmbeddingEntry :=
  [⟨("a.md").toList, [1, 0]⟩,
   ⟨("b.md").toList, [0.9, 0.1]⟩,
   ⟨("a.md#chunk2").toList, [0.99, 0]⟩]

theorem scenario_parse : autoParseEmbeddings scenarioJson
    = some ⟨scenarioEntries, 0,
        ("Vector-search format (3 vectors, model: unknown)").toList⟩ := rfl

theorem sqrt82_pos : (0 : ℝ) < Real.sqrt 0.82 := Real.sqrt_pos.mpr (by norm_num)

theorem l2norm_9_1 : l2norm [(0.9 : ℝ), 0.1] = Real.sqrt 0.82 := by
  rw [l2norm]
  norm_num

theorem normalizeVec_9_1 : normalizeVec [(0.9 : ℝ), 0.1]
    = [0.9 / Real.sqrt 0.82, 0.1 / Real.sqrt 0.82] := by
  rw [normalizeVec, l2norm_9_1, if_neg (ne_of_gt sqrt82_pos)]
  simp

theorem l2norm_99_0 : l2norm [(0.99 : ℝ), 0] = 0.99 := by
  rw [l2norm]
  have harg : (([(0.99 : ℝ), 0]).map (fun x => x * x)).sum = 0.99 ^ 2 := by
    norm_num
  rw [harg, Real.sqrt_sq (by norm_num)]

theorem normalizeVec_99_0 : normalizeVec [(0.99 : ℝ), 0] = [1, 0] := by
  rw [normalizeVec, l2norm_99_0, if_neg (by norm_num)]
  norm_num

theorem score_b_ge : (0.5 : ℝ) ≤ 0.9 / Real.sqrt 0.82 := by
  rw [le_div_iff₀ sqrt82_pos]
  have hle1 : Real.sqrt 0.82 ≤ 1 := Real.sqrt_le_one.mpr (by norm_num)
  nlinarith

theorem score_b_lt : (0.9 : ℝ) / Real.sqrt 0.82 < 1 := by
  rw [div_lt_one sqrt82_pos]
  have h9 : (0.9 : ℝ) = Real.sqrt 0.81 := by
    rw [show (0.81 : ℝ) = 0.9 ^ 2 by norm_num, Real.sqrt_sq (by norm_num)]
  rw [h9]
  exact Real.sqrt_lt_sqrt (by norm_num) (by norm_num)


/-- The index state after loading the scenario JSON. -/
noncomputable def scenarioState : IndexState :=
  (loadFromFile emptyIndex (.content scenarioJson) .auto none).2

theorem scenarioState_loaded : scenarioState.loaded = true := rfl

theorem scenarioState_entries : scenarioState.entries
    = [⟨("a.md").toList, normalizeVec [1, 0]⟩,
       ⟨("b.md").toList, normalizeVec [0.9, 0.1]⟩,
       ⟨("a.md#chunk2").toList, normalizeVec [0.99, 0]⟩] := by
  have h1 : scenarioState
      = { buildIndex emptyIndex scenarioEntries with
          formatDescription :=
            ("Vector-search format (3 vectors, model: unknown)").toList,
          loaded := true } := by
    rw [scenarioState]
    simp only [loadFromFile, scenario_parse, clearIndex]
  rw [h1]
  simp only [buildIndex, scenarioEntries, buildLoop, buildStep, addPathVariants]
  simp [emptyIndex]

theorem scenario_scan :
    scanEntries [(1 : ℝ), 0] 0.5 ([("a.md").toList].map canonPath) []
        scenarioState.entries
      = some [⟨("b.md").toList, 0.9 / Real.sqrt 0.82⟩,
              ⟨("a.md#chunk2").toList, (1 : ℝ)⟩] := by
  have hex1 : (([("a.md").toList].map canonPath).contains
      (canonPath (("a.md").toList))) = true := by decide
  have hex2 : (([("a.md").toList].map canonPath).contains
      (canonPath (("b.md").toList))) = false := by decide
  have hex3 : (([("a.md").toList].map canonPath).contains
      (canonPath (("a.md#chunk2").toList))) = false := by decide
  have hf2 : isInExcludedFolder (("b.md").toList) [] = false := by decide
  have hf3 : isInExcludedFolder (("a.md#chunk2").toList) [] = false := by decide
  have hd2 : cosineSimilarityNormalized [(1 : ℝ), 0] (normalizeVec [0.9, 0.1])
      = some (0.9 / Real.sqrt 0.82) := by
    rw [normalizeVec_9_1, cosineSimilarityNormalized, dotProduct]
    norm_num
  have hd3 : cosineSimilarityNormalized [(1 : ℝ), 0] (normalizeVec [0.99, 0])
      = some 1 := by
    rw [normalizeVec_99_0, cosineSimilarityNormalized, dotProduct]
    norm_num
  rw [scenarioState_entries]
  rw [scanEntries]
  simp only [hex1, if_true]
  rw [scanEntries]
  simp only [hex2, hf2, Bool.false_eq_true, if_false, hd2]
  rw [if_pos score_b_ge]
  rw [scanEntries]
  simp only [hex3, hf3, Bool.false_eq_true, if_false, hd3]
  rw [if_pos (by norm_num : (0.5 : ℝ) ≤ 1)]
  rw [scanEntries]
  rfl


theorem scenario_dedup :
    dedupByPath [⟨("b.md").toList, 0.9 / Real.sqrt 0.82⟩,
                 ⟨("a.md#chunk2").toList, (1 : ℝ)⟩]
      = [⟨("b.md").toList, 0.9 / Real.sqrt 0.82⟩,
         ⟨("a.md#chunk2").toList, (1 : ℝ)⟩] := rfl

theorem scenario_sort :
    sortByScoreDesc [⟨("b.md").toList, 0.9 / Real.sqrt 0.82⟩,
                     ⟨("a.md#chunk2").toList, (1 : ℝ)⟩]
      = [⟨("a.md#chunk2").toList, (1 : ℝ)⟩,
         ⟨("b.md").toList, 0.9 / Real.sqrt 0.82⟩] := by
  rw [sortByScoreDesc, sortByScoreDesc, sortByScoreDesc, insertDesc, insertDesc]
  simp only
  rw [if_pos score_b_lt, insertDesc]

/-- C1 (the failing input evaluated): loading the spec\'s scenario JSON and
searching with the query vector `[1,0]`, `k = 5`, `threshold = 0.5`,
`excludePaths = ["a.md"]` returns TWO results — `a.md#chunk2` (score 1)
first, then `b.md` — not the single result `b.md` that the claim requires:
`a.md#chunk2` is neither excluded (its canonical path differs from `a.md`)
nor deduplicated (no other surviving entry shares its canonical path). -/
theorem findNearest_chunk_scenario :
    (findNearest scenarioState [(1 : ℝ), 0]
        ⟨5, 0.5, [("a.md").toList], []⟩).map
      (fun l => l.map (fun r => r.path))
      = some [("a.md#chunk2").toList, ("b.md").toList] := by
  rw [findNearest, if_pos scenarioState_loaded, scanResults]
  simp only [normalizeVec_10]
  rw [scenario_scan, Option.map_some', scenario_dedup, scenario_sort,
    Option.map_some']
  rfl


end SmartLinker
